import Mathlib

/-!
# Verification of the multi-format structural merge engine

Shallow embedding of `src/setup/merge-strategy.ts`: the header-sectioned
document codec and Section Merger (`parseMarkdownSections`, `normalizeHeader`,
`mergeMarkdown`), the YAML-subset codec and merger (`parseSimpleYaml`,
`parseYamlValue`, `stringifyYaml`, `deepMergePreserveExisting`, `mergeYaml`),
and the JSON codec and merger (`deepMergeJson`, `mergeJson`), together with
theorems settling the specification claims about them.

JavaScript-semantics conventions used throughout the embedding:
* strings are Lean `String`s (JS UTF-16 details are abstracted away; all
  inputs of interest are ASCII);
* JS `Array.prototype.push` on a shared accumulator array is modelled by
  appending to an explicitly threaded list;
* JS objects (`Record<string, unknown>`) are modelled as insertion-ordered
  association lists: assigning to a present key updates the value in place,
  assigning to an absent key appends the entry;
* JS numbers appear in the merged trees only as opaque scalars (the merge
  logic never computes with them), so a numeric value is represented by its
  source text.
-/

set_option autoImplicit false
set_option linter.unusedTactic false
set_option linter.unnecessarySeqFocus false
set_option linter.unreachableTactic false

namespace MergeStrategy

/-- JS whitespace characters (`\s`, `trim`): the ASCII ones that can actually
occur in the engine's inputs. -/
def jsWs (c : Char) : Bool :=
  c = ' ' ∨ c = '\t' ∨ c = '\n' ∨ c = '\r' ∨ c = '\x0b' ∨ c = '\x0c'

/-- Strip leading and trailing JS whitespace from a character list. -/
def trimChars (l : List Char) : List Char :=
  ((l.dropWhile jsWs).reverse.dropWhile jsWs).reverse

/-- JS `String.prototype.trim`. -/
def jsTrim (s : String) : String :=
  String.mk (trimChars s.data)

/-- JS `String.prototype.split` with a one-character separator, on
character lists; always returns at least one piece. -/
def splitOnChar (sep : Char) : List Char → List (List Char)
  | [] => [[]]
  | c :: rest =>
    match splitOnChar sep rest with
    | [] => [[]]
    | h :: t => if c = sep then [] :: h :: t else (c :: h) :: t

/-- JS `content.split(sep)` on strings. -/
def jsSplit (s : String) (sep : Char) : List String :=
  (splitOnChar sep s.data).map String.mk

/-- JS `Array.prototype.join` with a one-character separator, on character
lists. -/
def joinWithChar (sep : Char) : List (List Char) → List Char
  | [] => []
  | [x] => x
  | x :: y :: t => x ++ sep :: joinWithChar sep (y :: t)

/-- JS `lines.join("\n")`. -/
def joinLines (ls : List String) : String :=
  String.mk (joinWithChar '\n' (ls.map String.data))

/-- Index of the first occurrence of `pat` as a sublist of `hay`
(JS `String.prototype.indexOf`, `none` for not found). -/
def idxOfSub (hay pat : List Char) : Option Nat :=
  match hay with
  | [] => if pat = [] then some 0 else none
  | _ :: t => if pat.isPrefixOf hay then some 0 else (idxOfSub t pat).map (· + 1)

/-- JS `content.indexOf(pat)` on strings, as an `Option`. -/
def strIndexOf (s pat : String) : Option Nat :=
  idxOfSub s.data pat.data

/-- Result of a merge operation (`MergeResult` in the source). -/
structure MergeResult where
  content : String
  preserved : List String
  added : List String
deriving Repr, DecidableEq

/-- A parsed Markdown section (`MarkdownSection` in the source). -/
structure MarkdownSection where
  header : String
  level : Nat
  rawHeader : String
  content : String
  fullText : String
deriving Repr, DecidableEq

/-- Characters matched by JS regex `.` (anything but a line terminator). -/
def dotOk (c : Char) : Bool :=
  ¬ (c = '\n' ∨ c = '\r' ∨ c = '\u2028' ∨ c = '\u2029')

/-- JS regex `^(#{1,6})\s+(.+)$` applied to one line, returning the header
level and the trimmed header text `match[2].trim()`.  The regex matches iff
the line starts with one to six `#`, followed by at least one whitespace
character, with the rest of the line (after a backtrackable `\s+` prefix)
consisting of at least one `.`-matchable character.  Whatever split the
backtracking settles on, `match[2]` differs from the text after the hashes
only by removed leading whitespace, so `match[2].trim()` equals the trim of
everything after the hashes. -/
def matchHeaderLine (l : String) : Option (Nat × String) :=
  let cs := l.data
  let n := (cs.takeWhile (fun c => c = '#')).length
  let rest := cs.drop n
  let w := (rest.takeWhile jsWs).length
  if 1 ≤ n ∧ n ≤ 6 ∧ 1 ≤ w ∧ 2 ≤ rest.length ∧
      (rest.drop (min w (rest.length - 1))).all dotOk then
    some (n, String.mk (trimChars rest))
  else none

/-- Close the currently accumulating section: join its content lines and
compute `fullText` exactly as the source does. -/
def closeSec (header : String) (level : Nat) (rawHeader : String)
    (acc : List String) : MarkdownSection :=
  let c := joinLines acc
  { header := header, level := level, rawHeader := rawHeader, content := c,
    fullText := rawHeader ++ (if c ≠ "" then "\n" ++ c else "") }

/-- The line loop of `parseMarkdownSections`: walks the lines keeping the
currently open section (`currentSection`), its accumulated content lines
(`contentLines`) and the finished sections.  Returns the finished sections
and the final value of `contentLines` (used by the caller only when no
header line was ever seen). -/
def parseGo : List String → Option (String × Nat × String) → List String →
    List MarkdownSection → (List MarkdownSection × List String)
  | [], cur, acc, secs =>
    match cur with
    | some (h, lvl, raw) => (secs ++ [closeSec h lvl raw acc], acc)
    | none => (secs, acc)
  | l :: rest, cur, acc, secs =>
    match matchHeaderLine l with
    | some (lvl, txt) =>
      match cur with
      | some (h, hl, raw) =>
        parseGo rest (some (txt, lvl, l)) [] (secs ++ [closeSec h hl raw acc])
      | none => parseGo rest (some (txt, lvl, l)) [] secs
    | none => parseGo rest cur (acc ++ [l]) secs

/-- `parseMarkdownSections` from the source: split into lines, run the line
loop, then handle preamble content before the first header (via `indexOf` of
the first raw header line, substring and trim), or the whole document as a
single preamble when it has no header lines. -/
def parseMarkdownSections (content : String) : List MarkdownSection :=
  let lines := jsSplit content '\n'
  let r := parseGo lines none [] []
  let secs := r.1
  let lastAcc := r.2
  if secs = [] then
    if 0 < lastAcc.length then
      [{ header := "__preamble__", level := 0, rawHeader := "",
         content := joinLines lastAcc,
         fullText := joinLines lastAcc }]
    else []
  else
    match secs with
    | [] => secs
    | s0 :: _ =>
      match strIndexOf content s0.rawHeader with
      | some i =>
        if 0 < i then
          let pre := jsTrim (String.mk (content.data.take i))
          if pre ≠ "" then
            { header := "__preamble__", level := 0, rawHeader := "",
              content := pre, fullText := pre } :: secs
          else secs
        else secs
      | none => secs

/-- `normalizeHeader` from the source: lowercase, strip every character that
is not a lowercase letter, digit or whitespace, trim. -/
def normalizeHeader (header : String) : String :=
  jsTrim (String.mk ((header.data.map Char.toLower).filter
    (fun c => ('a' ≤ c ∧ c ≤ 'z') ∨ ('0' ≤ c ∧ c ≤ '9') ∨ jsWs c)))

/-- `headersMatch` from the source. -/
def headersMatch (header1 header2 : String) : Bool :=
  normalizeHeader header1 = normalizeHeader header2

/-- JS `Map.prototype.set`: replace the value of a present key in place,
append an absent key. -/
def mapSet (m : List (String × MarkdownSection)) (k : String)
    (v : MarkdownSection) : List (String × MarkdownSection) :=
  match m with
  | [] => [(k, v)]
  | (k0, v0) :: rest =>
    if k0 = k then (k0, v) :: rest else (k0, v0) :: mapSet rest k v

/-- JS `Map.prototype.get`. -/
def mapGet (m : List (String × MarkdownSection)) (k : String) :
    Option MarkdownSection :=
  match m with
  | [] => none
  | (k0, v0) :: rest => if k0 = k then some v0 else mapGet rest k

/-- The `existingByHeader` map of `mergeMarkdown`: index sections by
normalized header, later sections overwriting earlier ones. -/
def buildSectionMap (secs : List MarkdownSection) :
    List (String × MarkdownSection) :=
  secs.foldl (fun m s => mapSet m (normalizeHeader s.header) s) []

/-- The first loop of `mergeMarkdown` over the generated sections: returns
the emitted section texts, the `preserved` and `added` records and the used
existing keys, all in emission order. -/
def mergeGenPhase (m : List (String × MarkdownSection)) :
    List MarkdownSection → (List String × List String × List String × List String)
  | [] => ([], [], [], [])
  | g :: gs =>
    let r := mergeGenPhase m gs
    match mapGet m (normalizeHeader g.header) with
    | some ex =>
      (ex.fullText :: r.1,
       (if ex.header ≠ "__preamble__" then [ex.header] else []) ++ r.2.1,
       r.2.2.1,
       normalizeHeader g.header :: r.2.2.2)
    | none =>
      (g.fullText :: r.1,
       r.2.1,
       (if g.header ≠ "__preamble__" then [g.header] else []) ++ r.2.2.1,
       r.2.2.2)

/-- The second loop of `mergeMarkdown`: existing sections whose normalized
key was never marked used, excluding the preamble. -/
def leftoverSections (es : List MarkdownSection) (used : List String) :
    List MarkdownSection :=
  es.filter (fun s =>
    ¬ used.contains (normalizeHeader s.header) ∧ s.header ≠ "__preamble__")

/-- `mergeMarkdown` from the source. -/
def mergeMarkdown (existing generated : String) : MergeResult :=
  if jsTrim existing = "" then
    { content := generated, preserved := [],
      added := ((parseMarkdownSections generated).filter
        (fun s => s.header ≠ "__preamble__")).map (·.header) }
  else if jsTrim generated = "" then
    { content := existing,
      preserved := ((parseMarkdownSections existing).filter
        (fun s => s.header ≠ "__preamble__")).map (·.header),
      added := [] }
  else
    let es := parseMarkdownSections existing
    let gs := parseMarkdownSections generated
    let m := buildSectionMap es
    let r := mergeGenPhase m gs
    let lo := leftoverSections es r.2.2.2
    { content := jsTrim (String.intercalate "\n\n" (r.1 ++ lo.map (·.fullText))) ++ "\n",
      preserved := r.2.1 ++ lo.map (·.header),
      added := r.2.2.1 }

mutual

/-- A JavaScript value as produced by the two structured codecs
(`JSON.parse` and `parseSimpleYaml`).  A numeric scalar is represented by
its source text: the merge logic only ever inspects whether a value is a
plain object, an array or `null`, and never computes with numbers.  Arrays
and objects carry their own spine types (`JsArr`, `JsObj`) so that all
recursion over values is structural. -/
inductive JsValue where
  | vstr : String → JsValue
  | vnum : String → JsValue
  | vbool : Bool → JsValue
  | vnull : JsValue
  | varr : JsArr → JsValue
  | vobj : JsObj → JsValue

/-- The elements of a JS array value. -/
inductive JsArr where
  | nil : JsArr
  | cons : JsValue → JsArr → JsArr

/-- The ordered key/value entries of a JS object
(`Record<string, unknown>`). -/
inductive JsObj where
  | nil : JsObj
  | cons : String → JsValue → JsObj → JsObj

end

/-- JS object member lookup (`obj[key]`, first entry wins; entries built by
the codecs have unique keys). -/
def objLookup : JsObj → String → Option JsValue
  | .nil, _ => none
  | .cons k0 v0 rest, k => if k0 = k then some v0 else objLookup rest k

/-- JS `key in obj`. -/
def objHas (o : JsObj) (k : String) : Bool :=
  (objLookup o k).isSome

/-- JS property assignment `obj[key] = v`: update a present key in place,
append an absent key. -/
def objSet : JsObj → String → JsValue → JsObj
  | .nil, k, v => .cons k v .nil
  | .cons k0 v0 rest, k, v =>
    if k0 = k then .cons k0 v rest else .cons k0 v0 (objSet rest k v)

/-- JS `Object.keys`. -/
def objKeys : JsObj → List String
  | .nil => []
  | .cons k _ rest => k :: objKeys rest

/-- Concatenation of entry sequences (the result object of `deepMergeJson`
is built by inserting the existing-loop entries first, then the fresh
generated-only entries). -/
def objAppend : JsObj → JsObj → JsObj
  | .nil, o2 => o2
  | .cons k v rest, o2 => .cons k v (objAppend rest o2)

/-- Keep the entries whose key satisfies the predicate
(`entries.filter(...)` over keys in the source loops). -/
def objFilterKeys (p : String → Bool) : JsObj → JsObj
  | .nil => .nil
  | .cons k v rest =>
    if p k then .cons k v (objFilterKeys p rest) else objFilterKeys p rest

/-- JS `Array.prototype.push` (append one element at the end). -/
def arrSnoc : JsArr → JsValue → JsArr
  | .nil, v => .cons v .nil
  | .cons h t, v => .cons h (arrSnoc t v)

/-- The test `typeof x === "object" && x !== null && !Array.isArray(x)`
used by both deep merges to decide whether to recurse. -/
def isPlainObject : JsValue → Bool
  | .vobj _ => true
  | _ => false

/-- `path ? path + "." + key : key` — qualified dotted path of a key. -/
def dotPath (path key : String) : String :=
  if path = "" then key else path ++ "." ++ key

/-- The first loop of `deepMergeJson`, over the existing object's entries:
a key absent from generated is preserved; a key present in both with plain
objects on both sides recurses (the recursive occurrence inlines the whole
nested `deepMergeJson`, i.e. the nested first loop followed by the nested
fresh-keys loop — see `deepMergeJson_def`); otherwise existing wins. -/
def deepMergeJsonGo : JsObj → JsObj → String → List String → List String →
    JsObj × List String × List String
  | .nil, _, _, pres, add => (.nil, pres, add)
  | .cons k v rest, g, path, pres, add =>
    match objLookup g k with
    | none =>
      let r := deepMergeJsonGo rest g path (pres ++ [dotPath path k]) add
      (.cons k v r.1, r.2)
    | some w =>
      match v, w with
      | .vobj vo, .vobj wo =>
        let rn := deepMergeJsonGo vo wo (dotPath path k) pres add
        let freshN := objFilterKeys (fun k2 => ¬ objHas vo k2) wo
        let rn1 := objAppend rn.1 freshN
        let addN := rn.2.2 ++ (objKeys freshN).map (dotPath (dotPath path k))
        let r := deepMergeJsonGo rest g path rn.2.1 addN
        (.cons k (.vobj rn1) r.1, r.2)
      | _, _ =>
        let r := deepMergeJsonGo rest g path (pres ++ [dotPath path k]) add
        (.cons k v r.1, r.2)

/-- `deepMergeJson` from the source: the loop over existing entries followed
by the loop appending the keys only present in generated. -/
def deepMergeJson (existing generated : JsObj) (path : String)
    (pres add : List String) : JsObj × List String × List String :=
  let r := deepMergeJsonGo existing generated path pres add
  let fresh := objFilterKeys (fun k => ¬ objHas existing k) generated
  (objAppend r.1 fresh, r.2.1, r.2.2 ++ (objKeys fresh).map (dotPath path))

/-- The loop of `deepMergePreserveExisting` over the generated object's
entries, threading the result object (initialized to a copy of existing):
new keys are appended, conflicts keep existing's value, plain objects on
both sides recurse (the recursive occurrence inlines the whole nested
`deepMergePreserveExisting`, see `deepMergePreserve_def`). -/
def deepMergePreserveGo : JsObj → JsObj → JsObj → String → List String →
    List String → JsObj × List String × List String
  | _, .nil, result, _, pres, add => (result, pres, add)
  | e, .cons k w rest, result, path, pres, add =>
    match objLookup e k with
    | none =>
      deepMergePreserveGo e rest (objSet result k w) path pres
        (add ++ [dotPath path k])
    | some v =>
      match v, w with
      | .vobj vo, .vobj wo =>
        let rn := deepMergePreserveGo vo wo vo (dotPath path k) pres add
        let presN := rn.2.1 ++
          (objKeys (objFilterKeys (fun k2 => ¬ objHas wo k2) vo)).map
            (dotPath (dotPath path k))
        deepMergePreserveGo e rest (objSet result k (.vobj rn.1)) path
          presN rn.2.2
      | _, _ =>
        deepMergePreserveGo e rest (objSet result k v) path
          (pres ++ [dotPath path k]) add

/-- `deepMergePreserveExisting` from the source: `result = \x7b...existing\x7d`,
the loop over generated keys, then the loop recording the keys only present
in existing as preserved. -/
def deepMergePreserveExisting (existing generated : JsObj) (path : String)
    (pres add : List String) : JsObj × List String × List String :=
  let r := deepMergePreserveGo existing generated existing path pres add
  (r.1,
   r.2.1 ++ (objKeys (objFilterKeys (fun k => ¬ objHas generated k) existing)).map
     (dotPath path),
   r.2.2)

mutual

/-- `collectKeys` walking the entries of a plain object: record every key's
dotted path, recursing into plain-object values (the source's `collectKeys`
re-dispatches on the value; here the object case is entered directly). -/
def collectKeysEntries : JsObj → String → List String → List String
  | .nil, _, keys => keys
  | .cons k v rest, path, keys =>
    let fp := dotPath path k
    let keys1 := keys ++ [fp]
    let keys2 := match v with
      | .vobj o => collectKeysEntries o fp keys1
      | _ => keys1
    collectKeysEntries rest path keys2

/-- `collectKeys` walking the index/value pairs of an array (`Object.keys`
of a JS array yields its indices as decimal strings). -/
def collectKeysElems : JsArr → Nat → String → List String → List String
  | .nil, _, _, keys => keys
  | .cons v rest, i, path, keys =>
    let fp := dotPath path (toString i)
    let keys1 := keys ++ [fp]
    let keys2 := match v with
      | .vobj o => collectKeysEntries o fp keys1
      | _ => keys1
    collectKeysElems rest (i + 1) path keys2

end

/-- `collectKeys` from the source: dispatch on the value (arrays also pass
the `typeof obj === "object"` guard and contribute one path per element;
scalars contribute nothing). -/
def collectKeys (v : JsValue) (path : String) (keys : List String) :
    List String :=
  match v with
  | .vobj entries => collectKeysEntries entries path keys
  | .varr elems => collectKeysElems elems 0 path keys
  | _ => keys

/-- Worker for `firstDedup`, keeping the set of elements already emitted. -/
def firstDedupGo (seen : List String) : List String → List String
  | [] => []
  | x :: rest =>
    if seen.contains x then firstDedupGo seen rest
    else x :: firstDedupGo (seen ++ [x]) rest

/-- JS `[...new Set(xs)]`: remove duplicates keeping the first occurrence of
each element. -/
def firstDedup (l : List String) : List String :=
  firstDedupGo [] l

/-- Decimal digit. -/
def isDigitCh (c : Char) : Bool := '0' ≤ c ∧ c ≤ '9'

/-- Hexadecimal digit. -/
def isHexCh (c : Char) : Bool :=
  isDigitCh c ∨ ('a' ≤ c ∧ c ≤ 'f') ∨ ('A' ≤ c ∧ c ≤ 'F')

/-- Octal digit. -/
def isOctCh (c : Char) : Bool := '0' ≤ c ∧ c ≤ '7'

/-- Binary digit. -/
def isBinCh (c : Char) : Bool := c = '0' ∨ c = '1'

/-- Nonempty run of decimal digits. -/
def allDigits1 (l : List Char) : Bool := ¬ l = [] ∧ l.all isDigitCh

/-- Optional exponent part of a JS decimal literal (`[eE][+-]?digits`),
checked against the whole remaining text. -/
def numTail (l : List Char) : Bool :=
  match l with
  | [] => true
  | c :: r =>
    (c = 'e' ∨ c = 'E') ∧
      (if r.head? = some '+' ∨ r.head? = some '-' then allDigits1 r.tail
       else allDigits1 r)

/-- JS `StrUnsignedDecimalLiteral` without the `Infinity` form:
`digits [. digits?] [exp]` or `. digits [exp]`. -/
def strDecimalLit (l : List Char) : Bool :=
  let ip := l.takeWhile isDigitCh
  let r1 := l.drop ip.length
  if ip = [] then
    match r1 with
    | '.' :: r2 =>
      let fp := r2.takeWhile isDigitCh
      allDigits1 fp ∧ numTail (r2.drop fp.length)
    | _ => false
  else
    match r1 with
    | [] => true
    | '.' :: r2 => numTail (r2.drop (r2.takeWhile isDigitCh).length)
    | _ => numTail r1

/-- JS unsigned decimal literal, including `Infinity`. -/
def strUnsignedDec (l : List Char) : Bool :=
  l = "Infinity".data ∨ strDecimalLit l

/-- JS non-decimal integer literal (`0x`/`0o`/`0b` forms, no sign). -/
def nonDecimalLit (l : List Char) : Bool :=
  match l with
  | '0' :: x :: rest =>
    ((x = 'x' ∨ x = 'X') ∧ ¬ rest = [] ∧ rest.all isHexCh) ∨
    ((x = 'o' ∨ x = 'O') ∧ ¬ rest = [] ∧ rest.all isOctCh) ∨
    ((x = 'b' ∨ x = 'B') ∧ ¬ rest = [] ∧ rest.all isBinCh)
  | _ => false

/-- Whether JS `Number(s)` yields a non-NaN value: whitespace-only text
coerces to `0`, otherwise the trimmed text must be a numeric literal
(optionally signed decimal or `Infinity`, or an unsigned radix literal). -/
def jsNumberOk (s : String) : Bool :=
  let l := trimChars s.data
  match l with
  | [] => true
  | c :: rest =>
    if c = '+' ∨ c = '-' then strUnsignedDec rest
    else strUnsignedDec l ∨ nonDecimalLit l

/-- Escape double quotes (`value.replace(/"/g, '\\"')`). -/
def escapeQuotes (s : String) : String :=
  String.join (s.data.map (fun c => if c = '"' then "\\\"" else String.mk [c]))

/-- The test `(value.startsWith('"') && value.endsWith('"')) ||
(value.startsWith("'") && value.endsWith("'"))` of `parseYamlValue`:
first and last character are the same kind of quote (true also for the
one-character strings consisting of a single quote). -/
def yamlQuoted (value : String) : Prop :=
  (value.data.head? = some '"' ∧ value.data.getLast? = some '"') ∨
  (value.data.head? = some '\'' ∧ value.data.getLast? = some '\'')

instance (value : String) : Decidable (yamlQuoted value) := by
  unfold yamlQuoted; infer_instance

/-- `parseYamlValue` from the source: strip surrounding quotes (verbatim,
without unescaping — `value.slice(1, -1)`), then the exact-case boolean
forms, the null forms, then JS `Number` coercion, else the text itself. -/
def parseYamlValue (value : String) : JsValue :=
  if yamlQuoted value then
    .vstr (String.mk value.data.tail.dropLast)
  else if value = "true" ∨ value = "True" ∨ value = "TRUE" then .vbool true
  else if value = "false" ∨ value = "False" ∨ value = "FALSE" then .vbool false
  else if value = "null" ∨ value = "~" ∨ value = "" then .vnull
  else if jsNumberOk value ∧ ¬ value = "" then .vnum value
  else .vstr value

/-- A frame of `parseSimpleYaml`'s stack.  The source keeps a direct
reference to the frame's target object; since that object is always
reachable from the root result object, the reference is modelled as the
access path from the root. -/
structure YamlFrame where
  indent : Int
  path : List String
  key : Option String
deriving Repr

/-- Read the plain object at a path from the root (models following the
object reference held by a stack frame). -/
def getAtPath : JsObj → List String → Option JsObj
  | o, [] => some o
  | o, k :: ks =>
    match objLookup o k with
    | some (.vobj o2) => getAtPath o2 ks
    | _ => none

/-- Assign `obj[k] = v` on the object at a path from the root.  The
fallback case is unreachable: every stack frame's path addresses a live
object of the current root. -/
def setAtPath : JsObj → List String → String → JsValue → JsObj
  | o, [], k, v => objSet o k v
  | o, p :: ps, k, v =>
    match objLookup o p with
    | some (.vobj o2) => objSet o p (.vobj (setAtPath o2 ps k v))
    | _ => o

/-- The frame-popping loop `while (stack.length > 1 && top.indent >= indent)`.
The stack is kept top-first.  (The pending-array flush inside the source's
array-item pop loop is dead code: `currentArrayKey` is initialized to null
and never assigned a key, so the flush condition never fires.) -/
def popFrames : List YamlFrame → Int → List YamlFrame
  | f :: g :: rest, indent =>
    if indent ≤ f.indent then popFrames (g :: rest) indent else f :: g :: rest
  | s, _ => s

/-- One line of `parseSimpleYaml`'s loop, transforming the root object and
the frame stack. -/
def yamlStep (st : JsObj × List YamlFrame) (line : String) :
    JsObj × List YamlFrame :=
  let root := st.1
  let stack := st.2
  let t := jsTrim line
  if t = "" ∨ t.data.head? = some '#' then st
  else
    let indent : Int := ((line.data.takeWhile jsWs).length : Nat)
    if t.data.take 2 = ['-', ' '] then
      let value := jsTrim (String.mk (t.data.drop 2))
      let stack1 := popFrames stack indent
      match stack1 with
      | [] => (root, stack1)
      | parent :: _ =>
        match parent.key with
        | some k =>
          let cur := (getAtPath root parent.path).bind (fun o => objLookup o k)
          let items := match cur with
            | some (.varr xs) => arrSnoc xs (parseYamlValue value)
            | _ => .cons (parseYamlValue value) .nil
          (setAtPath root parent.path k (.varr items), stack1)
        | none => (root, stack1)
    else
      match strIndexOf t ":" with
      | some ci =>
        if 0 < ci then
          let key := jsTrim (String.mk (t.data.take ci))
          let valueStr := jsTrim (String.mk (t.data.drop (ci + 1)))
          let stack1 := popFrames stack indent
          match stack1 with
          | [] => (root, stack1)
          | parent :: _ =>
            if valueStr = "" ∨ valueStr = "|" ∨ valueStr = ">" then
              (setAtPath root parent.path key (.vobj .nil),
               ⟨indent, parent.path ++ [key], some key⟩ :: stack1)
            else
              (setAtPath root parent.path key (parseYamlValue valueStr), stack1)
        else st
      | none => st

/-- `parseSimpleYaml` from the source: fold the line handler over the
lines, starting from an empty root and the root frame at indent `-1`. -/
def parseSimpleYaml (content : String) : JsObj :=
  ((jsSplit content '\n').foldl yamlStep (.nil, [⟨-1, [], none⟩])).1

mutual

/-- JS `String(value)` for the values that can appear in a parsed tree
(used by `formatYamlValue`'s fallback): arrays stringify as their elements
joined by commas with `null` rendered empty, plain objects as
`[object Object]`. -/
def jsToString : JsValue → String
  | .vstr s => s
  | .vnum s => s
  | .vbool b => if b then "true" else "false"
  | .vnull => "null"
  | .vobj _ => "[object Object]"
  | .varr xs => String.intercalate "," (jsToStringItems xs)

/-- Elementwise `String` conversion inside `Array.prototype.join`, which
renders `null` as the empty string. -/
def jsToStringItems : JsArr → List String
  | .nil => []
  | .cons .vnull rest => "" :: jsToStringItems rest
  | .cons v rest => jsToString v :: jsToStringItems rest

end

/-- `formatYamlValue` from the source. -/
def formatYamlValue (value : JsValue) : String :=
  match value with
  | .vnull => "null"
  | .vbool b => if b then "true" else "false"
  | .vnum s => s
  | .vstr v =>
    if v.data.contains ':' ∨ v.data.contains '#' ∨ v.data.contains '\n' ∨
        v.data.head? = some ' ' ∨ v.data.getLast? = some ' ' ∨ v = "" ∨
        v.data.head? = some '\x7b' ∨ v.data.head? = some '[' then
      "\"" ++ escapeQuotes v ++ "\""
    else v
  | other => jsToString other

/-- `"  ".repeat(indent)`. -/
def spacesOf (n : Nat) : String :=
  String.join (List.replicate n "  ")

/-- Whether a JS array value has no elements (`obj.length === 0`). -/
def arrIsEmpty : JsArr → Bool
  | .nil => true
  | _ => false

/-- The `key: value` lines of the remaining entries of a plain-object array
item, two spaces deeper than its `- ` line. -/
def arrItemRestLines (spaces : String) : JsObj → List String
  | .nil => []
  | .cons k v rest =>
    (spaces ++ "  " ++ k ++ ": " ++ formatYamlValue v) ::
      arrItemRestLines spaces rest

mutual

/-- `stringifyYaml` from the source. -/
def stringifyYaml : JsValue → Nat → String
  | .vnull, _ => "null"
  | .vstr s, _ => formatYamlValue (.vstr s)
  | .vnum s, _ => formatYamlValue (.vnum s)
  | .vbool b, _ => formatYamlValue (.vbool b)
  | .varr xs, indent =>
    if arrIsEmpty xs then "[]"
    else String.intercalate "\n" (stringifyArrLines xs indent)
  | .vobj es, indent =>
    String.intercalate "\n" (stringifyObjLines es indent)

/-- The array loop of `stringifyYaml`: a plain-object item puts its first
entry on the `- ` line and the remaining entries two spaces deeper; other
items are formatted inline. -/
def stringifyArrLines : JsArr → Nat → List String
  | .nil, _ => []
  | .cons item rest, indent =>
    let spaces := spacesOf indent
    (match item with
     | .vobj entries =>
       match entries with
       | .nil => [spaces ++ "- \x7b\x7d"]
       | .cons k0 v0 more =>
         (spaces ++ "- " ++ k0 ++ ": " ++ formatYamlValue v0) ::
           arrItemRestLines spaces more
     | _ => [spaces ++ "- " ++ formatYamlValue item]) ++
    stringifyArrLines rest indent

/-- The object loop of `stringifyYaml`. -/
def stringifyObjLines : JsObj → Nat → List String
  | .nil, _ => []
  | .cons key value rest, indent =>
    let spaces := spacesOf indent
    (match value with
     | .varr xs =>
       if arrIsEmpty xs then [spaces ++ key ++ ": []"]
       else [spaces ++ key ++ ":", stringifyYaml (.varr xs) (indent + 1)]
     | .vobj es2 =>
       let nested := stringifyYaml (.vobj es2) (indent + 1)
       if nested.data.contains '\n' ∨ 0 < (objKeys es2).length then
         [spaces ++ key ++ ":", nested]
       else [spaces ++ key ++ ": \x7b\x7d"]
     | _ => [spaces ++ key ++ ": " ++ formatYamlValue value]) ++
    stringifyObjLines rest indent

end

/-- `mergeYaml` from the source. -/
def mergeYaml (existing generated : String) : MergeResult :=
  if jsTrim existing = "" then
    { content := jsTrim generated ++ "\n", preserved := [],
      added := collectKeys (.vobj (parseSimpleYaml generated)) "" [] }
  else if jsTrim generated = "" then
    { content := jsTrim existing ++ "\n",
      preserved := collectKeys (.vobj (parseSimpleYaml existing)) "" [],
      added := [] }
  else
    let r := deepMergePreserveExisting (parseSimpleYaml existing)
      (parseSimpleYaml generated) "" [] []
    { content := stringifyYaml (.vobj r.1) 0 ++ "\n",
      preserved := firstDedup r.2.1, added := firstDedup r.2.2 }

/-- JSON whitespace (space, tab, newline, carriage return). -/
def jsonWs (c : Char) : Bool :=
  c = ' ' ∨ c = '\t' ∨ c = '\n' ∨ c = '\r'

/-- Skip JSON whitespace. -/
def skipWs (l : List Char) : List Char :=
  l.dropWhile jsonWs

/-- Value of a hexadecimal digit. -/
def hexVal (c : Char) : Option Nat :=
  if '0' ≤ c ∧ c ≤ '9' then some (c.toNat - '0'.toNat)
  else if 'a' ≤ c ∧ c ≤ 'f' then some (c.toNat - 'a'.toNat + 10)
  else if 'A' ≤ c ∧ c ≤ 'F' then some (c.toNat - 'A'.toNat + 10)
  else none

/-- JSON number token: `-? (0 | [1-9][0-9]*) frac? exp?`.  Returns the
token's characters and the rest of the input. -/
def jsonNumToken (l : List Char) : Option (List Char × List Char) :=
  let sign := if l.head? = some '-' then l.take 1 else []
  let l1 := l.drop sign.length
  let ip := l1.takeWhile isDigitCh
  if ip = [] then none
  else if 1 < ip.length ∧ ip.head? = some '0' then none
  else
    let l2 := l1.drop ip.length
    let fr : Option (List Char) :=
      match l2 with
      | '.' :: r =>
        let ds := r.takeWhile isDigitCh
        if ds = [] then none else some ('.' :: ds)
      | _ => some []
    match fr with
    | none => none
    | some frc =>
      let l3 := l2.drop frc.length
      let ex : Option (List Char) :=
        match l3 with
        | e :: r =>
          if e = 'e' ∨ e = 'E' then
            let sg := if r.head? = some '+' ∨ r.head? = some '-' then r.take 1 else []
            let ds := (r.drop sg.length).takeWhile isDigitCh
            if ds = [] then none else some (e :: (sg ++ ds))
          else some []
        | [] => some []
      match ex with
      | none => none
      | some exc => some (sign ++ ip ++ frc ++ exc, l3.drop exc.length)

mutual

/-- Recursive-descent JSON value parser (models `JSON.parse`), with a fuel
argument bounding the recursion depth; `jsonParse` supplies ample fuel. -/
def parseJsonValue : Nat → List Char → Option (JsValue × List Char)
  | 0, _ => none
  | fuel + 1, l =>
    match skipWs l with
    | [] => none
    | c :: rest =>
      if c = '\x7b' then parseJsonMembers fuel rest
      else if c = '[' then parseJsonElems fuel rest
      else if c = '"' then
        (parseJsonStringGo fuel rest "").map (fun p => (.vstr p.1, p.2))
      else if c = 't' then
        if rest.take 3 = ['r', 'u', 'e'] then some (.vbool true, rest.drop 3)
        else none
      else if c = 'f' then
        if rest.take 4 = ['a', 'l', 's', 'e'] then some (.vbool false, rest.drop 4)
        else none
      else if c = 'n' then
        if rest.take 3 = ['u', 'l', 'l'] then some (.vnull, rest.drop 3)
        else none
      else
        match jsonNumToken (c :: rest) with
        | some (tok, r) => some (.vnum (String.mk tok), r)
        | none => none

/-- Object body, entered just after the opening brace. -/
def parseJsonMembers : Nat → List Char → Option (JsValue × List Char)
  | 0, _ => none
  | fuel + 1, l =>
    match skipWs l with
    | '}' :: r => some (.vobj .nil, r)
    | _ => parseJsonMembersGo fuel l .nil

/-- Members loop of an object body.  A duplicate key overwrites the earlier
value in place, as `JSON.parse` does. -/
def parseJsonMembersGo : Nat → List Char → JsObj →
    Option (JsValue × List Char)
  | 0, _, _ => none
  | fuel + 1, l, acc =>
    match skipWs l with
    | '"' :: r =>
      match parseJsonStringGo fuel r "" with
      | none => none
      | some (key, r2) =>
        match skipWs r2 with
        | ':' :: r3 =>
          match parseJsonValue fuel r3 with
          | none => none
          | some (v, r4) =>
            match skipWs r4 with
            | ',' :: r5 => parseJsonMembersGo fuel r5 (objSet acc key v)
            | '}' :: r5 => some (.vobj (objSet acc key v), r5)
            | _ => none
        | _ => none
    | _ => none

/-- Array body, entered just after the opening bracket. -/
def parseJsonElems : Nat → List Char → Option (JsValue × List Char)
  | 0, _ => none
  | fuel + 1, l =>
    match skipWs l with
    | ']' :: r => some (.varr .nil, r)
    | _ => parseJsonElemsGo fuel l .nil

/-- Elements loop of an array body. -/
def parseJsonElemsGo : Nat → List Char → JsArr →
    Option (JsValue × List Char)
  | 0, _, _ => none
  | fuel + 1, l, acc =>
    match parseJsonValue fuel l with
    | none => none
    | some (v, r) =>
      match skipWs r with
      | ',' :: r2 => parseJsonElemsGo fuel r2 (arrSnoc acc v)
      | ']' :: r2 => some (.varr (arrSnoc acc v), r2)
      | _ => none

/-- JSON string body, entered just after the opening quote.  Escapes for
surrogate halves are outside the model (they cannot be represented as Lean
characters and occur in none of the engine's inputs). -/
def parseJsonStringGo : Nat → List Char → String → Option (String × List Char)
  | 0, _, _ => none
  | fuel + 1, l, acc =>
    match l with
    | [] => none
    | c :: rest =>
      if c = '"' then some (acc, rest)
      else if c = '\\' then
        match rest with
        | [] => none
        | e :: r2 =>
          if e = '"' then parseJsonStringGo fuel r2 (acc.push '"')
          else if e = '\\' then parseJsonStringGo fuel r2 (acc.push '\\')
          else if e = '/' then parseJsonStringGo fuel r2 (acc.push '/')
          else if e = 'b' then parseJsonStringGo fuel r2 (acc.push '\x08')
          else if e = 'f' then parseJsonStringGo fuel r2 (acc.push '\x0c')
          else if e = 'n' then parseJsonStringGo fuel r2 (acc.push '\n')
          else if e = 'r' then parseJsonStringGo fuel r2 (acc.push '\r')
          else if e = 't' then parseJsonStringGo fuel r2 (acc.push '\t')
          else if e = 'u' then
            match r2 with
            | h1 :: h2 :: h3 :: h4 :: r3 =>
              match hexVal h1, hexVal h2, hexVal h3, hexVal h4 with
              | some a, some b, some c2, some d =>
                let code := ((a * 16 + b) * 16 + c2) * 16 + d
                if code < 0xd800 ∨ (0xe000 ≤ code ∧ code < 0x110000) then
                  parseJsonStringGo fuel r3 (acc.push (Char.ofNat code))
                else none
              | _, _, _, _ => none
            | _ => none
          else none
      else if c.toNat < 0x20 then none
      else parseJsonStringGo fuel rest (acc.push c)

end

/-- `JSON.parse` on a whole document: a single value with only whitespace
around it. -/
def jsonParse (s : String) : Option JsValue :=
  match parseJsonValue (s.length * 4 + 16) s.data with
  | some (v, r) => if skipWs r = [] then some v else none
  | none => none

/-- `JSON.stringify` escaping of one string character. -/
def jsonEscapeChar (c : Char) : String :=
  if c = '"' then "\\\""
  else if c = '\\' then "\\\\"
  else if c = '\x08' then "\\b"
  else if c = '\t' then "\\t"
  else if c = '\n' then "\\n"
  else if c = '\x0c' then "\\f"
  else if c = '\r' then "\\r"
  else if c.toNat < 0x20 then
    "\\u00" ++ String.mk [(Nat.digitChar (c.toNat / 16)), (Nat.digitChar (c.toNat % 16))]
  else String.mk [c]

/-- `JSON.stringify` rendering of a string. -/
def jsonQuote (s : String) : String :=
  "\"" ++ String.join (s.data.map jsonEscapeChar) ++ "\""

mutual

/-- `JSON.stringify(value, null, 2)` at a given indentation depth. -/
def jsonStringify : JsValue → Nat → String
  | .vnull, _ => "null"
  | .vbool b, _ => if b then "true" else "false"
  | .vnum s, _ => s
  | .vstr s, _ => jsonQuote s
  | .varr xs, ind =>
    if arrIsEmpty xs then "[]"
    else
      "[\n" ++ String.intercalate ",\n" (jsonStringifyItems xs (ind + 1)) ++
        "\n" ++ spacesOf ind ++ "]"
  | .vobj es, ind =>
    match es with
    | .nil => "\x7b\x7d"
    | _ =>
      "\x7b\n" ++ String.intercalate ",\n" (jsonStringifyEntries es (ind + 1)) ++
        "\n" ++ spacesOf ind ++ "\x7d"

/-- Array items of `JSON.stringify`, each on its own indented line. -/
def jsonStringifyItems : JsArr → Nat → List String
  | .nil, _ => []
  | .cons v rest, ind =>
    (spacesOf ind ++ jsonStringify v ind) :: jsonStringifyItems rest ind

/-- Object entries of `JSON.stringify`, each on its own indented line. -/
def jsonStringifyEntries : JsObj → Nat → List String
  | .nil, _ => []
  | .cons k v rest, ind =>
    (spacesOf ind ++ jsonQuote k ++ ": " ++ jsonStringify v ind) ::
      jsonStringifyEntries rest ind

end

/-- `mergeJson` from the source: the two empty-side branches, then parse
both sides — the `catch` of the source's `try` block corresponds to either
parse returning `none` —, the two non-object root branches, then the deep
merge. -/
def mergeJson (existing generated : String) : MergeResult :=
  if jsTrim existing = "" then
    match jsonParse generated with
    | some genObj =>
      { content := jsonStringify genObj 0 ++ "\n", preserved := [],
        added := collectKeys genObj "" [] }
    | none => { content := generated, preserved := [], added := [] }
  else if jsTrim generated = "" then
    match jsonParse existing with
    | some exObj =>
      { content := jsonStringify exObj 0 ++ "\n",
        preserved := collectKeys exObj "" [], added := [] }
    | none => { content := existing, preserved := [], added := [] }
  else
    match jsonParse existing, jsonParse generated with
    | some exv, some genv =>
      match exv with
      | .vobj eo =>
        match genv with
        | .vobj go =>
          let r := deepMergeJson eo go "" [] []
          { content := jsonStringify (.vobj r.1) 0 ++ "\n",
            preserved := r.2.1, added := r.2.2 }
        | _ =>
          { content := jsonStringify (.vobj eo) 0 ++ "\n",
            preserved := collectKeys (.vobj eo) "" [], added := [] }
      | _ =>
        { content := jsonStringify exv 0 ++ "\n", preserved := ["(root)"],
          added := [] }
    | _, _ =>
      { content := existing, preserved := ["(parse error - kept existing)"],
        added := [] }

/-- Decimal value of a digit string. -/
def decVal (l : List Char) : Nat :=
  l.foldl (fun n c => n * 10 + (c.toNat - '0'.toNat)) 0

/-- ECMAScript array-index property key: the canonical decimal string of
an integer below `2^32 - 1`, i.e. `"0"` or a nonzero digit followed by
digits. -/
def isArrayIndexKey (s : String) : Bool :=
  match s.data with
  | [] => false
  | c :: rest =>
    if c = '0' then rest.isEmpty
    else if '1' ≤ c ∧ c ≤ '9' then
      rest.all isDigitCh && decide (decVal (c :: rest) < 4294967295)
    else false

/-- Insert a key into a list of array-index keys sorted by numeric value
(ascending). -/
def insertByVal (k : String) : List String → List String
  | [] => [k]
  | x :: xs =>
    if decVal k.data ≤ decVal x.data then k :: x :: xs
    else x :: insertByVal k xs

/-- Insertion sort of array-index keys by numeric value. -/
def sortByVal : List String → List String
  | [] => []
  | x :: xs => insertByVal x (sortByVal xs)

/-- ECMAScript own-property key order of an ordinary object (the
`[[OwnPropertyKeys]]` order observed through `Object.keys`,
`Object.entries` and `JSON.stringify`): array-index keys first, in
ascending numeric order, then the remaining string keys in insertion
order. -/
def jsOwnKeys (o : JsObj) : List String :=
  sortByVal ((objKeys o).filter isArrayIndexKey) ++
    (objKeys o).filter (fun k => ¬ isArrayIndexKey k)

/-! ## Basic lemmas -/

/-- A character list whose trim is empty consists of whitespace only. -/
theorem trimChars_nil_all {l : List Char} (h : trimChars l = []) :
    ∀ c ∈ l, jsWs c := by
  unfold trimChars at h
  rw [List.reverse_eq_nil_iff, List.dropWhile_eq_nil_iff] at h
  intro c hc
  rw [← List.takeWhile_append_dropWhile (p := jsWs) (l := l)] at hc
  rcases List.mem_append.mp hc with hc | hc
  · exact List.mem_takeWhile_imp hc
  · exact h c (List.mem_reverse.mpr hc)

/-- The head of a `dropWhile` result falsifies the predicate. -/
theorem dropWhile_head_false {p : Char → Bool} :
    ∀ {l : List Char} {c : Char} {rest : List Char},
      l.dropWhile p = c :: rest → p c = false := by
  intro l
  induction l with
  | nil => intro c rest h; simp at h
  | cons a t ih =>
    intro c rest h
    rw [List.dropWhile_cons] at h
    by_cases hp : p a
    · rw [if_pos hp] at h; exact ih h
    · rw [if_neg hp] at h
      cases h
      exact Bool.not_eq_true _ ▸ (by simpa using hp)

/-- The JSON value parser fails on whitespace-only input. -/
theorem parseJsonValue_ws (fuel : Nat) (l : List Char)
    (h : ∀ c ∈ l, jsWs c) : parseJsonValue fuel l = none := by
  cases fuel with
  | zero => rfl
  | succ fuel =>
    cases hsk : skipWs l with
    | nil => simp [parseJsonValue, hsk]
    | cons c rest =>
      have hmem : c ∈ l := by
        have : c ∈ skipWs l := by rw [hsk]; exact List.mem_cons_self _ _
        exact List.dropWhile_subset _ this
      have hws : jsWs c := h c hmem
      have hnj : jsonWs c = false := dropWhile_head_false hsk
      have hc : c = '\x0b' ∨ c = '\x0c' := by
        unfold jsWs at hws
        unfold jsonWs at hnj
        simp only [decide_eq_true_eq, Bool.or_eq_true, decide_eq_false_iff_not] at hws hnj
        push_neg at hnj
        tauto
      rcases hc with hc | hc <;> subst hc <;>
        simp [parseJsonValue, hsk, jsonNumToken, isDigitCh]

/-- A string that parses as JSON is not whitespace-only. -/
theorem jsonParse_some_trim {s : String} {v : JsValue}
    (h : jsonParse s = some v) : jsTrim s ≠ "" := by
  intro he
  have hall : ∀ c ∈ s.data, jsWs c := by
    apply trimChars_nil_all
    have : (jsTrim s).data = ("" : String).data := by rw [he]
    simpa [jsTrim] using this
  unfold jsonParse at h
  rw [parseJsonValue_ws _ _ hall] at h
  exact Option.noConfusion h

/-! ## C2 — JSON parse-failure fallback -/

/-- C2, counterexample: the claim states that whenever either side fails to
parse as JSON the merge returns the existing text with
`preserved = ["(parse error - kept existing)"]`.  With `existing = "x"`
(unparseable) and `generated = ""` the empty-generated edge branch runs
first and its catch returns `preserved = []`, not the sentinel. -/
theorem mergeJson_no_sentinel_on_empty_generated :
    mergeJson "x" "" = { content := "x", preserved := [], added := [] } ∧
    (mergeJson "x" "").preserved ≠ ["(parse error - kept existing)"] ∧
    (mergeJson "\x7b\"a\":1\x7d" "").preserved = ["a"] ∧
    (mergeJson "\x7b\"a\":1\x7d" "").preserved ≠
      ["(parse error - kept existing)"] :=
  ⟨rfl, by decide, rfl, by decide⟩

/-- C2, amended: for input strings that are both non-empty after trimming,
if either side fails to parse as JSON, `mergeJson` returns the existing
text unchanged with the parse-error sentinel as the only preserved entry
and nothing added (and no exception propagates: the function is total).
When a side trims to the empty string, the edge branches run first and
never produce the sentinel: with existing empty, generated is parsed — on
success the re-serialized generated object is returned with its key paths
in `added`, on failure the raw generated text with empty provenance; with
generated empty and existing non-empty, existing is parsed — on success
the re-serialized existing object is returned with its key paths in
`preserved`, on failure the raw existing text with empty provenance. -/
theorem mergeJson_parse_failure_fallback :
    (∀ e g : String, jsTrim e ≠ "" → jsTrim g ≠ "" →
       jsonParse e = none ∨ jsonParse g = none →
       mergeJson e g =
         { content := e, preserved := ["(parse error - kept existing)"],
           added := [] }) ∧
    (∀ e g : String, jsTrim e = "" → ∀ gv, jsonParse g = some gv →
       mergeJson e g =
         { content := jsonStringify gv 0 ++ "\n",
           preserved := [], added := collectKeys gv "" [] }) ∧
    (∀ e g : String, jsTrim e = "" → jsonParse g = none →
       mergeJson e g = { content := g, preserved := [], added := [] }) ∧
    (∀ e g : String, jsTrim e ≠ "" → jsTrim g = "" →
       ∀ ev, jsonParse e = some ev →
       mergeJson e g =
         { content := jsonStringify ev 0 ++ "\n",
           preserved := collectKeys ev "" [], added := [] }) ∧
    (∀ e g : String, jsTrim e ≠ "" → jsTrim g = "" → jsonParse e = none →
       mergeJson e g = { content := e, preserved := [], added := [] }) := by
  refine ⟨?_, ?_, ?_, ?_, ?_⟩
  · intro e g he hg h
    unfold mergeJson
    rw [if_neg he, if_neg hg]
    rcases h with h | h
    · rw [h]
    · rcases hpe : jsonParse e with _ | ev
      · rw [h]
      · rw [h]
  · intro e g he gv hg
    unfold mergeJson
    rw [if_pos he, hg]
  · intro e g he hg
    unfold mergeJson
    rw [if_pos he, hg]
  · intro e g he hg ev hpe
    unfold mergeJson
    rw [if_neg he, if_pos hg, hpe]
  · intro e g he hg hpe
    unfold mergeJson
    rw [if_neg he, if_pos hg, hpe]

/-- Witness for `mergeJson_parse_failure_fallback`: the specification's
concrete parse-failure example, and the generated-empty edge branch with a
parseable existing side. -/
theorem mergeJson_parse_failure_fallback_witness :
    jsTrim "\x7bnot json" ≠ "" ∧ jsonParse "\x7bnot json" = none ∧
    mergeJson "\x7bnot json" "\x7b\"a\":1\x7d" =
      { content := "\x7bnot json",
        preserved := ["(parse error - kept existing)"], added := [] } ∧
    jsonParse "\x7b\"a\":1\x7d" = some (.vobj (.cons "a" (.vnum "1") .nil)) ∧
    mergeJson "\x7b\"a\":1\x7d" "" =
      { content :=
          jsonStringify (.vobj (.cons "a" (.vnum "1") .nil)) 0 ++ "\n",
        preserved := collectKeys (.vobj (.cons "a" (.vnum "1") .nil)) "" [],
        added := [] } :=
  ⟨by decide, rfl,
    mergeJson_parse_failure_fallback.1 _ _ (by decide) (by decide)
      (Or.inl rfl),
    rfl,
    mergeJson_parse_failure_fallback.2.2.2.1 _ _ (by decide) (by decide)
      _ rfl⟩

/-! ## C3 — non-object JSON roots -/

/-- C3, counterexample: the claim states that whenever either root is not a
plain object the sentinel `"(root)"` is recorded.  When the existing root
is an object and only the generated root is not, the code instead records
every key path of the existing object. -/
theorem mergeJson_generated_nonobject_keeps_keys :
    (mergeJson "\x7b\"a\":1\x7d" "[1]").preserved = ["a"] ∧
    (mergeJson "\x7b\"a\":1\x7d" "[1]").preserved ≠ ["(root)"] :=
  ⟨rfl, by decide⟩

/-- C3, amended: when both sides parse, a non-object existing root
short-circuits with the `"(root)"` sentinel and re-serialized existing
content; an object existing root with a non-object generated root keeps
the existing object with all of its key paths recorded in `preserved`.  In
both cases `added` is empty and the generated content is discarded. -/
theorem mergeJson_nonobject_root (e g : String) (ev gv : JsValue)
    (hpe : jsonParse e = some ev) (hpg : jsonParse g = some gv) :
    (isPlainObject ev = false →
      mergeJson e g = { content := jsonStringify ev 0 ++ "\n",
                        preserved := ["(root)"], added := [] }) ∧
    (isPlainObject ev = true → isPlainObject gv = false →
      mergeJson e g = { content := jsonStringify ev 0 ++ "\n",
                        preserved := collectKeys ev "" [], added := [] }) := by
  have he := jsonParse_some_trim hpe
  have hg := jsonParse_some_trim hpg
  unfold mergeJson
  rw [if_neg he, if_neg hg, hpe, hpg]
  constructor
  · intro h1
    cases ev <;> simp [isPlainObject] at h1 ⊢ <;> rfl
  · intro h1 h2
    cases ev <;> simp [isPlainObject] at h1
    cases gv <;> simp [isPlainObject] at h2 <;> rfl

/-- Witness for `mergeJson_nonobject_root` with an array existing root. -/
theorem mergeJson_nonobject_root_witness :
    jsonParse "[1]" = some (.varr (.cons (.vnum "1") .nil)) ∧
    mergeJson "[1]" "[2]" =
      { content := jsonStringify (JsValue.varr (.cons (.vnum "1") .nil)) 0 ++ "\n",
        preserved := ["(root)"], added := [] } :=
  ⟨rfl, (mergeJson_nonobject_root "[1]" "[2]" _ _ rfl rfl).1 rfl⟩

/-! ## Object algebra lemmas -/

/-- The auto-generated `sizeOf` facts used by the inductions below. -/
theorem sizeOf_objPos (o : JsObj) : 0 < sizeOf o := by
  cases o <;> simp

/-- Entry-list induction for `JsObj`; the values are not recursed into, so
a single motive suffices. -/
@[induction_eliminator]
theorem JsObj.inductionOn {motive : JsObj → Prop} (o : JsObj)
    (nil : motive .nil)
    (cons : ∀ k v rest, motive rest → motive (.cons k v rest)) : motive o := by
  have H : ∀ (n : Nat) (o : JsObj), sizeOf o ≤ n → motive o := by
    intro n
    induction n with
    | zero =>
      intro o h
      exact absurd h (by simpa using Nat.not_le.mpr (sizeOf_objPos o))
    | succ n ih =>
      intro o h
      cases o with
      | nil => exact nil
      | cons k v rest =>
        refine cons k v rest (ih rest ?_)
        simp at h; omega
  exact H (sizeOf o) o le_rfl

theorem objLookup_objAppend (o1 o2 : JsObj) (k : String) :
    objLookup (objAppend o1 o2) k =
      match objLookup o1 k with
      | some v => some v
      | none => objLookup o2 k := by
  induction o1 with
  | nil => simp [objAppend, objLookup]
  | cons k0 v0 rest ih =>
    by_cases h : k0 = k <;> simp [objAppend, objLookup, h, ih]

theorem objKeys_objAppend (o1 o2 : JsObj) :
    objKeys (objAppend o1 o2) = objKeys o1 ++ objKeys o2 := by
  induction o1 with
  | nil => simp [objAppend, objKeys]
  | cons k0 v0 rest ih => simp [objAppend, objKeys, ih]

theorem objKeys_objFilterKeys (p : String → Bool) (o : JsObj) :
    objKeys (objFilterKeys p o) = (objKeys o).filter p := by
  induction o with
  | nil => simp [objFilterKeys, objKeys]
  | cons k0 v0 rest ih =>
    by_cases h : p k0 <;> simp [objFilterKeys, objKeys, h, ih, List.filter_cons]

theorem objLookup_objSet_self (o : JsObj) (k : String) (v : JsValue) :
    objLookup (objSet o k v) k = some v := by
  induction o with
  | nil => simp [objSet, objLookup]
  | cons k0 v0 rest ih =>
    by_cases h : k0 = k <;> simp [objSet, objLookup, h, ih]

theorem objLookup_objSet_ne (o : JsObj) {k' k : String} (v : JsValue)
    (h : k' ≠ k) : objLookup (objSet o k' v) k = objLookup o k := by
  induction o with
  | nil => simp [objSet, objLookup, h]
  | cons k0 v0 rest ih =>
    by_cases h0 : k0 = k'
    · subst h0; simp [objSet, objLookup, h, ih]
    · by_cases h1 : k0 = k
      · subst h1; simp [objSet, objLookup, h0, Ne.symm h]
      · simp [objSet, objLookup, h0, h1, ih]

theorem objKeys_objSet_of_has (o : JsObj) {k : String} (v : JsValue)
    (h : objHas o k = true) : objKeys (objSet o k v) = objKeys o := by
  induction o with
  | nil => simp [objHas, objLookup] at h
  | cons k0 v0 rest ih =>
    by_cases h0 : k0 = k
    · simp [objSet, objKeys, h0]
    · have : objHas rest k = true := by
        simpa [objHas, objLookup, h0] using h
      simp [objSet, objKeys, h0, ih this]

theorem objKeys_objSet_of_not_has (o : JsObj) {k : String} (v : JsValue)
    (h : objHas o k = false) : objKeys (objSet o k v) = objKeys o ++ [k] := by
  induction o with
  | nil => simp [objSet, objKeys]
  | cons k0 v0 rest ih =>
    by_cases h0 : k0 = k
    · simp [objHas, objLookup, h0] at h
    · have : objHas rest k = false := by
        simpa [objHas, objLookup, h0] using h
      simp [objSet, objKeys, h0, ih this]

theorem objHas_objSet (o : JsObj) (k' k : String) (v : JsValue) :
    objHas (objSet o k' v) k = (objHas o k || decide (k = k')) := by
  by_cases h : k = k'
  · subst h; simp [objHas, objLookup_objSet_self]
  · simp [objHas, objLookup_objSet_ne o v (Ne.symm h), h]

theorem objLookup_eq_none_iff (o : JsObj) (k : String) :
    objLookup o k = none ↔ k ∉ objKeys o := by
  induction o with
  | nil => simp [objLookup, objKeys]
  | cons k0 v0 rest ih =>
    by_cases h : k0 = k
    · subst h; simp [objLookup, objKeys]
    · simp [objLookup, objKeys, h, Ne.symm h, ih]

/-! ## The provenance outputs of the deep merges, accumulator-free

The source mutates shared `preserved`/`added` arrays; the embedding
threads them.  The following functions compute, for each merge, the
merged entries and the exact suffixes pushed onto the two arrays; the
`_acc` lemmas show the threaded functions equal these. -/

/-- The entries produced by the first loop of `deepMergeJson`. -/
def dmjRes : JsObj → JsObj → String → JsObj
  | .nil, _, _ => .nil
  | .cons k v rest, g, path =>
    match objLookup g k with
    | none => .cons k v (dmjRes rest g path)
    | some w =>
      match v, w with
      | .vobj vo, .vobj wo =>
        .cons k (.vobj (objAppend (dmjRes vo wo (dotPath path k))
          (objFilterKeys (fun k2 => ¬ objHas vo k2) wo)))
          (dmjRes rest g path)
      | _, _ => .cons k v (dmjRes rest g path)
termination_by e _ _ => sizeOf e
decreasing_by all_goals (simp_wf <;> omega)

/-- The suffix pushed onto `preserved` by the first loop of
`deepMergeJson`. -/
def dmjPres : JsObj → JsObj → String → List String
  | .nil, _, _ => []
  | .cons k v rest, g, path =>
    match objLookup g k with
    | none => dotPath path k :: dmjPres rest g path
    | some w =>
      match v, w with
      | .vobj vo, .vobj wo => dmjPres vo wo (dotPath path k) ++ dmjPres rest g path
      | _, _ => dotPath path k :: dmjPres rest g path
termination_by e _ _ => sizeOf e
decreasing_by all_goals (simp_wf <;> omega)

/-- The suffix pushed onto `added` by the first loop of `deepMergeJson`. -/
def dmjAdd : JsObj → JsObj → String → List String
  | .nil, _, _ => []
  | .cons k v rest, g, path =>
    match objLookup g k with
    | none => dmjAdd rest g path
    | some w =>
      match v, w with
      | .vobj vo, .vobj wo =>
        (dmjAdd vo wo (dotPath path k) ++
          (objKeys (objFilterKeys (fun k2 => ¬ objHas vo k2) wo)).map
            (dotPath (dotPath path k))) ++ dmjAdd rest g path
      | _, _ => dmjAdd rest g path
termination_by e _ _ => sizeOf e
decreasing_by all_goals (simp_wf <;> omega)

/-- `deepMergeJsonGo` in terms of the accumulator-free outputs. -/
theorem deepMergeJsonGo_acc :
    ∀ (e g : JsObj) (path : String) (pres add : List String),
      deepMergeJsonGo e g path pres add =
        (dmjRes e g path, pres ++ dmjPres e g path, add ++ dmjAdd e g path) := by
  have H : ∀ (n : Nat) (e : JsObj), sizeOf e ≤ n → ∀ (g : JsObj)
      (path : String) (pres add : List String),
      deepMergeJsonGo e g path pres add =
        (dmjRes e g path, pres ++ dmjPres e g path, add ++ dmjAdd e g path) := by
    intro n
    induction n with
    | zero =>
      intro e he
      exact absurd he (by simpa using Nat.not_le.mpr (sizeOf_objPos e))
    | succ n ih =>
      intro e he g path pres add
      cases e with
      | nil => simp [deepMergeJsonGo, dmjRes, dmjPres, dmjAdd]
      | cons k v rest =>
        have hrest : sizeOf rest ≤ n := by simp at he; omega
        cases hg : objLookup g k with
        | none =>
          simp [deepMergeJsonGo, dmjRes, dmjPres, dmjAdd, hg, ih rest hrest]
        | some w =>
          cases v with
          | vobj vo =>
            cases w with
            | vobj wo =>
              have hvo : sizeOf vo ≤ n := by simp at he; omega
              simp [deepMergeJsonGo, dmjRes, dmjPres, dmjAdd, hg,
                ih rest hrest, ih vo hvo]
            | vstr s =>
              simp [deepMergeJsonGo, dmjRes, dmjPres, dmjAdd, hg, ih rest hrest]
            | vnum s =>
              simp [deepMergeJsonGo, dmjRes, dmjPres, dmjAdd, hg, ih rest hrest]
            | vbool b =>
              simp [deepMergeJsonGo, dmjRes, dmjPres, dmjAdd, hg, ih rest hrest]
            | vnull =>
              simp [deepMergeJsonGo, dmjRes, dmjPres, dmjAdd, hg, ih rest hrest]
            | varr xs =>
              simp [deepMergeJsonGo, dmjRes, dmjPres, dmjAdd, hg, ih rest hrest]
          | vstr s =>
            simp [deepMergeJsonGo, dmjRes, dmjPres, dmjAdd, hg, ih rest hrest]
          | vnum s =>
            simp [deepMergeJsonGo, dmjRes, dmjPres, dmjAdd, hg, ih rest hrest]
          | vbool b =>
            simp [deepMergeJsonGo, dmjRes, dmjPres, dmjAdd, hg, ih rest hrest]
          | vnull =>
            simp [deepMergeJsonGo, dmjRes, dmjPres, dmjAdd, hg, ih rest hrest]
          | varr xs =>
            simp [deepMergeJsonGo, dmjRes, dmjPres, dmjAdd, hg, ih rest hrest]
  exact fun e g path pres add => H (sizeOf e) e le_rfl g path pres add

/-- `deepMergeJson` in terms of the accumulator-free outputs. -/
theorem deepMergeJson_acc (e g : JsObj) (path : String)
    (pres add : List String) :
    deepMergeJson e g path pres add =
      (objAppend (dmjRes e g path) (objFilterKeys (fun k => ¬ objHas e k) g),
       pres ++ dmjPres e g path,
       add ++ (dmjAdd e g path ++
         (objKeys (objFilterKeys (fun k => ¬ objHas e k) g)).map (dotPath path))) := by
  unfold deepMergeJson
  rw [deepMergeJsonGo_acc]
  simp

/-- The result object built by the loop of `deepMergePreserveExisting`. -/
def dmpGoRes : JsObj → JsObj → JsObj → String → JsObj
  | _, .nil, result, _ => result
  | e, .cons k w rest, result, path =>
    match objLookup e k with
    | none => dmpGoRes e rest (objSet result k w) path
    | some v =>
      match v, w with
      | .vobj vo, .vobj wo =>
        dmpGoRes e rest
          (objSet result k (.vobj (dmpGoRes vo wo vo (dotPath path k)))) path
      | _, _ => dmpGoRes e rest (objSet result k v) path
termination_by _ g _ _ => sizeOf g
decreasing_by all_goals (simp_wf <;> omega)

/-- The suffix pushed onto `preserved` by the loop of
`deepMergePreserveExisting` (the nested recursion contributes its own
second loop's paths as well). -/
def dmpPres : JsObj → JsObj → String → List String
  | _, .nil, _ => []
  | e, .cons k w rest, path =>
    match objLookup e k with
    | none => dmpPres e rest path
    | some v =>
      match v, w with
      | .vobj vo, .vobj wo =>
        (dmpPres vo wo (dotPath path k) ++
          (objKeys (objFilterKeys (fun k2 => ¬ objHas wo k2) vo)).map
            (dotPath (dotPath path k))) ++ dmpPres e rest path
      | _, _ => dotPath path k :: dmpPres e rest path
termination_by _ g _ => sizeOf g
decreasing_by all_goals (simp_wf <;> omega)

/-- The suffix pushed onto `added` by the loop of
`deepMergePreserveExisting`. -/
def dmpAdd : JsObj → JsObj → String → List String
  | _, .nil, _ => []
  | e, .cons k w rest, path =>
    match objLookup e k with
    | none => dotPath path k :: dmpAdd e rest path
    | some v =>
      match v, w with
      | .vobj vo, .vobj wo => dmpAdd vo wo (dotPath path k) ++ dmpAdd e rest path
      | _, _ => dmpAdd e rest path
termination_by _ g _ => sizeOf g
decreasing_by all_goals (simp_wf <;> omega)

/-- `deepMergePreserveGo` in terms of the accumulator-free outputs. -/
theorem deepMergePreserveGo_acc :
    ∀ (g e result : JsObj) (path : String) (pres add : List String),
      deepMergePreserveGo e g result path pres add =
        (dmpGoRes e g result path, pres ++ dmpPres e g path,
         add ++ dmpAdd e g path) := by
  have H : ∀ (n : Nat) (g : JsObj), sizeOf g ≤ n → ∀ (e result : JsObj)
      (path : String) (pres add : List String),
      deepMergePreserveGo e g result path pres add =
        (dmpGoRes e g result path, pres ++ dmpPres e g path,
         add ++ dmpAdd e g path) := by
    intro n
    induction n with
    | zero =>
      intro g hg
      exact absurd hg (by simpa using Nat.not_le.mpr (sizeOf_objPos g))
    | succ n ih =>
      intro g hg e result path pres add
      cases g with
      | nil => simp [deepMergePreserveGo, dmpGoRes, dmpPres, dmpAdd]
      | cons k w rest =>
        have hrest : sizeOf rest ≤ n := by simp at hg; omega
        cases he : objLookup e k with
        | none =>
          simp [deepMergePreserveGo, dmpGoRes, dmpPres, dmpAdd, he, ih rest hrest]
        | some v =>
          cases v with
          | vobj vo =>
            cases w with
            | vobj wo =>
              have hwo : sizeOf wo ≤ n := by simp at hg; omega
              simp [deepMergePreserveGo, dmpGoRes, dmpPres, dmpAdd, he,
                ih rest hrest, ih wo hwo]
            | vstr s =>
              simp [deepMergePreserveGo, dmpGoRes, dmpPres, dmpAdd, he, ih rest hrest]
            | vnum s =>
              simp [deepMergePreserveGo, dmpGoRes, dmpPres, dmpAdd, he, ih rest hrest]
            | vbool b =>
              simp [deepMergePreserveGo, dmpGoRes, dmpPres, dmpAdd, he, ih rest hrest]
            | vnull =>
              simp [deepMergePreserveGo, dmpGoRes, dmpPres, dmpAdd, he, ih rest hrest]
            | varr xs =>
              simp [deepMergePreserveGo, dmpGoRes, dmpPres, dmpAdd, he, ih rest hrest]
          | vstr s =>
            simp [deepMergePreserveGo, dmpGoRes, dmpPres, dmpAdd, he, ih rest hrest]
          | vnum s =>
            simp [deepMergePreserveGo, dmpGoRes, dmpPres, dmpAdd, he, ih rest hrest]
          | vbool b =>
            simp [deepMergePreserveGo, dmpGoRes, dmpPres, dmpAdd, he, ih rest hrest]
          | vnull =>
            simp [deepMergePreserveGo, dmpGoRes, dmpPres, dmpAdd, he, ih rest hrest]
          | varr xs =>
            simp [deepMergePreserveGo, dmpGoRes, dmpPres, dmpAdd, he, ih rest hrest]
  exact fun g e result path pres add => H (sizeOf g) g le_rfl e result path pres add

/-- `deepMergePreserveExisting` in terms of the accumulator-free outputs. -/
theorem deepMergePreserve_acc (e g : JsObj) (path : String)
    (pres add : List String) :
    deepMergePreserveExisting e g path pres add =
      (dmpGoRes e g e path,
       pres ++ (dmpPres e g path ++
         (objKeys (objFilterKeys (fun k => ¬ objHas g k) e)).map (dotPath path)),
       add ++ dmpAdd e g path) := by
  unfold deepMergePreserveExisting
  rw [deepMergePreserveGo_acc]
  simp

/-! ## Conflict and key-order lemmas for the deep merges -/

/-- At a key present on both sides with not both values plain objects, the
first loop of `deepMergeJson` keeps existing's value and pushes the dotted
path. -/
theorem dmjRes_conflict {e g : JsObj} {k : String} {ve wv : JsValue}
    (path : String) (hle : objLookup e k = some ve)
    (hlg : objLookup g k = some wv)
    (hb : isPlainObject ve = false ∨ isPlainObject wv = false) :
    objLookup (dmjRes e g path) k = some ve ∧
      dotPath path k ∈ dmjPres e g path := by
  induction e with
  | nil => simp [objLookup] at hle
  | cons k0 v0 rest ih =>
    by_cases h0 : k0 = k
    · subst h0
      have hve : v0 = ve := by simpa [objLookup] using hle
      subst hve
      cases v0 <;> cases wv <;>
        simp_all [dmjRes, dmjPres, objLookup, isPlainObject]
    · have hle' : objLookup rest k = some ve := by
        simpa [objLookup, h0] using hle
      cases hg0 : objLookup g k0 with
      | none =>
        simp [dmjRes, dmjPres, hg0, objLookup, h0, ih hle']
      | some w0 =>
        cases v0 <;> cases w0 <;>
          simp [dmjRes, dmjPres, hg0, objLookup, h0, ih hle']

/-- At a key with plain objects on both sides, the first loop of
`deepMergeJson` stores the full nested merge. -/
theorem dmjRes_nested {e g : JsObj} {k : String} {vo wo : JsObj}
    (path : String) (hle : objLookup e k = some (.vobj vo))
    (hlg : objLookup g k = some (.vobj wo)) :
    objLookup (dmjRes e g path) k =
      some (.vobj (objAppend (dmjRes vo wo (dotPath path k))
        (objFilterKeys (fun k2 => ¬ objHas vo k2) wo))) := by
  induction e with
  | nil => simp [objLookup] at hle
  | cons k0 v0 rest ih =>
    by_cases h0 : k0 = k
    · subst h0
      have hve : v0 = JsValue.vobj vo := by simpa [objLookup] using hle
      subst hve
      simp [dmjRes, hlg, objLookup]
    · have hle' : objLookup rest k = some (.vobj vo) := by
        simpa [objLookup, h0] using hle
      cases hg0 : objLookup g k0 with
      | none => simp [dmjRes, hg0, objLookup, h0, ih hle']
      | some w0 =>
        cases v0 <;> cases w0 <;> simp [dmjRes, hg0, objLookup, h0, ih hle']

/-- The first loop of `deepMergeJson` reproduces existing's keys. -/
theorem dmjRes_keys (e g : JsObj) (path : String) :
    objKeys (dmjRes e g path) = objKeys e := by
  induction e with
  | nil => simp [dmjRes]
  | cons k0 v0 rest ih =>
    cases hg0 : objLookup g k0 with
    | none => simp [dmjRes, hg0, objKeys, ih]
    | some w0 => cases v0 <;> cases w0 <;> simp [dmjRes, hg0, objKeys, ih]

/-- The loop of `deepMergePreserveExisting` leaves keys it never visits
untouched in the result. -/
theorem dmpGoRes_skip {g : JsObj} {k : String} (e result : JsObj)
    (path : String) (hk : objLookup g k = none) :
    objLookup (dmpGoRes e g result path) k = objLookup result k := by
  induction g generalizing result with
  | nil => simp [dmpGoRes]
  | cons k0 w0 rest ih =>
    have h0 : k0 ≠ k := by
      intro h; subst h; simp [objLookup] at hk
    have hk' : objLookup rest k = none := by simpa [objLookup, h0] using hk
    have ih' : ∀ r, objLookup (dmpGoRes e rest r path) k = objLookup r k :=
      fun r => ih r hk'
    cases he0 : objLookup e k0 with
    | none => rw [dmpGoRes]; simp [he0, ih', objLookup_objSet_ne _ _ h0]
    | some v0 =>
      cases v0 <;> cases w0 <;>
        (rw [dmpGoRes]; simp [he0, ih', objLookup_objSet_ne _ _ h0])

/-- At a key present on both sides with not both values plain objects, the
loop of `deepMergePreserveExisting` keeps existing's value and pushes the
dotted path (generated's keys assumed unique, as every parsed object's
are). -/
theorem dmpGoRes_conflict {e g : JsObj} {k : String} {ve wv : JsValue}
    (result : JsObj) (path : String) (hnd : (objKeys g).Nodup)
    (hle : objLookup e k = some ve) (hlg : objLookup g k = some wv)
    (hb : isPlainObject ve = false ∨ isPlainObject wv = false) :
    objLookup (dmpGoRes e g result path) k = some ve ∧
      dotPath path k ∈ dmpPres e g path := by
  induction g generalizing result with
  | nil => simp [objLookup] at hlg
  | cons k0 w0 rest ih =>
    by_cases h0 : k0 = k
    · subst h0
      have hwv : w0 = wv := by simpa [objLookup] using hlg
      subst hwv
      have hnotin : objLookup rest k0 = none := by
        rw [objLookup_eq_none_iff]
        simpa [objKeys] using hnd.not_mem
      constructor
      · cases ve <;> cases w0 <;>
          simp_all [dmpGoRes, objLookup, isPlainObject, hle] <;>
          rw [dmpGoRes_skip _ _ _ hnotin, objLookup_objSet_self]
      · cases ve <;> cases w0 <;>
          simp_all [dmpPres, objLookup, isPlainObject, hle]
    · have hnd' : (objKeys rest).Nodup := by
        simpa [objKeys] using hnd.of_cons
      have hlg' : objLookup rest k = some wv := by
        simpa [objLookup, h0] using hlg
      cases he0 : objLookup e k0 with
      | none =>
        rw [dmpGoRes, dmpPres]
        simp only [he0]
        exact ih _ hnd' hlg'
      | some v0 =>
        cases v0 <;> cases w0 <;>
          (rw [dmpGoRes, dmpPres]; simp only [he0]) <;>
          first
          | exact ih _ hnd' hlg'
          | (refine ⟨(ih _ hnd' hlg').1, ?_⟩
             exact List.mem_append_right _ (ih .nil hnd' hlg').2)
          | (refine ⟨(ih _ hnd' hlg').1, ?_⟩
             exact List.mem_cons_of_mem _ (ih .nil hnd' hlg').2)

/-- At a key with plain objects on both sides, the loop of
`deepMergePreserveExisting` stores the full nested merge. -/
theorem dmpGoRes_nested {e g : JsObj} {k : String} {vo wo : JsObj}
    (result : JsObj) (path : String) (hnd : (objKeys g).Nodup)
    (hle : objLookup e k = some (.vobj vo))
    (hlg : objLookup g k = some (.vobj wo)) :
    objLookup (dmpGoRes e g result path) k =
      some (.vobj (dmpGoRes vo wo vo (dotPath path k))) := by
  induction g generalizing result with
  | nil => simp [objLookup] at hlg
  | cons k0 w0 rest ih =>
    by_cases h0 : k0 = k
    · subst h0
      have hwv : w0 = JsValue.vobj wo := by simpa [objLookup] using hlg
      subst hwv
      have hnotin : objLookup rest k0 = none := by
        rw [objLookup_eq_none_iff]
        simpa [objKeys] using hnd.not_mem
      rw [dmpGoRes]
      simp only [hle]
      rw [dmpGoRes_skip _ _ _ hnotin, objLookup_objSet_self]
    · have hnd' : (objKeys rest).Nodup := by
        simpa [objKeys] using hnd.of_cons
      have hlg' : objLookup rest k = some (.vobj wo) := by
        simpa [objLookup, h0] using hlg
      cases he0 : objLookup e k0 with
      | none => rw [dmpGoRes]; simp only [he0]; exact ih _ hnd' hlg'
      | some v0 =>
        cases v0 <;> cases w0 <;> (rw [dmpGoRes]; simp only [he0]) <;>
          exact ih _ hnd' hlg'

/-- Key order built by the loop of `deepMergePreserveExisting`: the
result's keys, then the new generated keys in generated order. -/
theorem dmpGoRes_keys :
    ∀ (g e result : JsObj) (path : String), (objKeys g).Nodup →
      (∀ k2, objHas e k2 = true → objHas result k2 = true) →
      (∀ k2, k2 ∈ objKeys g → objHas e k2 = false → objHas result k2 = false) →
      objKeys (dmpGoRes e g result path) =
        objKeys result ++ (objKeys g).filter (fun k2 => ¬ objHas e k2) := by
  intro g
  induction g with
  | nil => intro e result path _ _ _; simp [dmpGoRes, objKeys]
  | cons k0 w0 rest ih =>
    intro e result path hnd inv2 inv3
    have hnd' : (objKeys rest).Nodup := by simpa [objKeys] using hnd.of_cons
    have hk0nin : k0 ∉ objKeys rest := by simpa [objKeys] using hnd.not_mem
    cases he0 : objLookup e k0 with
    | none =>
      have hek0 : objHas e k0 = false := by simp [objHas, he0]
      have hrk0 : objHas result k0 = false :=
        inv3 k0 (by simp [objKeys]) hek0
      rw [dmpGoRes]
      simp only [he0]
      rw [ih e (objSet result k0 w0) path hnd'
        (fun k2 h2 => by
          rw [objHas_objSet]; simp [inv2 k2 h2])
        (fun k2 hmem h2 => by
          rw [objHas_objSet]
          have : k2 ≠ k0 := fun h => hk0nin (h ▸ hmem)
          simp [inv3 k2 (by simp [objKeys, hmem]) h2, this])]
      rw [objKeys_objSet_of_not_has _ _ hrk0]
      simp [objKeys, List.filter_cons, hek0]
    | some v0 =>
      have hek0 : objHas e k0 = true := by simp [objHas, he0]
      have hrk0 : objHas result k0 = true := inv2 k0 hek0
      have hinv2 : ∀ (x : JsValue) k2, objHas e k2 = true →
          objHas (objSet result k0 x) k2 = true := fun x k2 h2 => by
        rw [objHas_objSet]; simp [inv2 k2 h2]
      have hinv3 : ∀ (x : JsValue) k2, k2 ∈ objKeys rest →
          objHas e k2 = false → objHas (objSet result k0 x) k2 = false :=
        fun x k2 hmem h2 => by
        rw [objHas_objSet]
        have hne : k2 ≠ k0 := fun h => by
          rw [h] at h2; rw [h2] at hek0; exact Bool.noConfusion hek0
        simp [inv3 k2 (by simp [objKeys, hmem]) h2, hne]
      have hkeys : ∀ (x : JsValue),
          objKeys (objSet result k0 x) = objKeys result :=
        fun x => objKeys_objSet_of_has _ _ hrk0
      cases v0 <;> cases w0 <;>
        (rw [dmpGoRes]; simp only [he0]
         rw [ih e _ path hnd' (hinv2 _) (hinv3 _), hkeys]
         simp [objKeys, List.filter_cons, hek0])

/-! ## C1 — existing wins on conflicting non-mapping values -/

/-- C1, confirmed: in both structured deep merges, for every key present in
both objects whose two values are not both plain objects, the merged value
at that key is existing's value and the key's dotted path is recorded in
`preserved` (for `deepMergePreserveExisting` the generated object's keys
are assumed unique, which holds for every parsed mapping). -/
theorem existing_wins_on_conflict :
    (∀ (e g : JsObj) (path : String) (pres add : List String) (k : String)
       (ve wv : JsValue),
       objLookup e k = some ve → objLookup g k = some wv →
       (isPlainObject ve = false ∨ isPlainObject wv = false) →
       objLookup (deepMergeJson e g path pres add).1 k = some ve ∧
         dotPath path k ∈ (deepMergeJson e g path pres add).2.1) ∧
    (∀ (e g : JsObj) (path : String) (pres add : List String) (k : String)
       (ve wv : JsValue), (objKeys g).Nodup →
       objLookup e k = some ve → objLookup g k = some wv →
       (isPlainObject ve = false ∨ isPlainObject wv = false) →
       objLookup (deepMergePreserveExisting e g path pres add).1 k = some ve ∧
         dotPath path k ∈ (deepMergePreserveExisting e g path pres add).2.1) := by
  constructor
  · intro e g path pres add k ve wv hle hlg hb
    have h := dmjRes_conflict path hle hlg hb
    rw [deepMergeJson_acc]
    constructor
    · rw [objLookup_objAppend, h.1]
    · exact List.mem_append_right _ h.2
  · intro e g path pres add k ve wv hnd hle hlg hb
    have h := dmpGoRes_conflict e path hnd hle hlg hb
    rw [deepMergePreserve_acc]
    constructor
    · exact h.1
    · exact List.mem_append_right _ (List.mem_append_left _ h.2)

/-- Witness for `existing_wins_on_conflict` at one-key objects with
conflicting scalar values. -/
theorem existing_wins_on_conflict_witness :
    objLookup (.cons "a" (.vnum "1") .nil) "a" = some (.vnum "1") ∧
    (objLookup (deepMergeJson (.cons "a" (.vnum "1") .nil)
        (.cons "a" (.vnum "2") .nil) "" [] []).1 "a" = some (.vnum "1") ∧
      dotPath "" "a" ∈ (deepMergeJson (.cons "a" (.vnum "1") .nil)
        (.cons "a" (.vnum "2") .nil) "" [] []).2.1) ∧
    (objLookup (deepMergePreserveExisting (.cons "a" (.vnum "1") .nil)
        (.cons "a" (.vnum "2") .nil) "" [] []).1 "a" = some (.vnum "1") ∧
      dotPath "" "a" ∈ (deepMergePreserveExisting (.cons "a" (.vnum "1") .nil)
        (.cons "a" (.vnum "2") .nil) "" [] []).2.1) :=
  ⟨rfl,
   existing_wins_on_conflict.1 _ _ "" [] [] "a" _ _ rfl rfl (Or.inl rfl),
   existing_wins_on_conflict.2 _ _ "" [] [] "a" _ _ (by simp [objKeys])
     rfl rfl (Or.inl rfl)⟩

/-! ## C10 — key order of the merged mappings -/

/-- Stored (insertion-order) keys of `deepMergeJson`. -/
theorem deepMergeJson_keys (e g : JsObj) (path : String)
    (pres add : List String) :
    objKeys (deepMergeJson e g path pres add).1 =
      objKeys e ++ (objKeys g).filter (fun k => ¬ objHas e k) := by
  rw [deepMergeJson_acc]
  simp [objKeys_objAppend, dmjRes_keys, objKeys_objFilterKeys]

/-- Stored (insertion-order) keys of `deepMergePreserveExisting`. -/
theorem deepMergePreserve_keys (e g : JsObj) (path : String)
    (pres add : List String) (hnd : (objKeys g).Nodup) :
    objKeys (deepMergePreserveExisting e g path pres add).1 =
      objKeys e ++ (objKeys g).filter (fun k => ¬ objHas e k) := by
  rw [deepMergePreserve_acc]
  simp only []
  rw [dmpGoRes_keys g e e path hnd (fun _ h => h) (fun _ _ h => h)]

/-- With no array-index key, the ECMAScript own-property order coincides
with the insertion order. -/
theorem jsOwnKeys_no_index (o : JsObj)
    (h : ∀ k ∈ objKeys o, isArrayIndexKey k = false) :
    jsOwnKeys o = objKeys o := by
  unfold jsOwnKeys
  rw [List.filter_eq_nil_iff.mpr (fun k hk => by simp [h k hk]),
    List.filter_eq_self.mpr (fun k hk => by simp [h k hk])]
  rfl

/-- C10, counterexample: the claim states that the merged mapping's key
order — as the program observes it through `Object.keys` and
`JSON.stringify` — is the existing keys followed by the generated-only
keys.  ECMAScript enumerates array-index keys first in ascending numeric
order, so merging `\x7b"b":1\x7d` with `\x7b"0":2\x7d` stores existing's
`"b"` before the new `"0"` but enumerates and serializes `"0"` first,
violating the law. -/
theorem merged_key_order_hoisting :
    objKeys (deepMergeJson (.cons "b" (.vnum "1") .nil)
      (.cons "0" (.vnum "2") .nil) "" [] []).1 = ["b", "0"] ∧
    jsOwnKeys (deepMergeJson (.cons "b" (.vnum "1") .nil)
      (.cons "0" (.vnum "2") .nil) "" [] []).1 = ["0", "b"] ∧
    isArrayIndexKey "0" = true ∧ isArrayIndexKey "b" = false ∧
    (["0", "b"] : List String) ≠ ["b", "0"] :=
  ⟨rfl, rfl, rfl, rfl, by decide⟩

/-- C10, amended: both deep merges store, at every level, the existing
object's entries first in existing order (with merged values substituted
in place) followed by the generated-only entries in generated order, and
at a key mapped to plain objects on both sides the merged value is again
a deep merge of the two children.  The order the program observes through
`Object.keys`/`JSON.stringify` is the ECMAScript own-property order,
which hoists array-index keys to the front in ascending numeric order; it
coincides with the stored order — and hence satisfies the
existing-then-generated-only law — exactly when no key of either mapping
is an array-index key.  (`deepMergePreserveExisting` assumes unique
generated keys, which holds for every parsed mapping.) -/
theorem merged_key_order :
    (∀ (e g : JsObj) (path : String) (pres add : List String),
       objKeys (deepMergeJson e g path pres add).1 =
         objKeys e ++ (objKeys g).filter (fun k => ¬ objHas e k)) ∧
    (∀ (e g : JsObj) (path : String) (pres add : List String) (k : String)
       (vo wo : JsObj),
       objLookup e k = some (.vobj vo) → objLookup g k = some (.vobj wo) →
       objLookup (deepMergeJson e g path pres add).1 k =
         some (.vobj (deepMergeJson vo wo (dotPath path k) [] []).1)) ∧
    (∀ (e g : JsObj) (path : String) (pres add : List String),
       (objKeys g).Nodup →
       objKeys (deepMergePreserveExisting e g path pres add).1 =
         objKeys e ++ (objKeys g).filter (fun k => ¬ objHas e k)) ∧
    (∀ (e g : JsObj) (path : String) (pres add : List String) (k : String)
       (vo wo : JsObj), (objKeys g).Nodup →
       objLookup e k = some (.vobj vo) → objLookup g k = some (.vobj wo) →
       objLookup (deepMergePreserveExisting e g path pres add).1 k =
         some (.vobj (deepMergePreserveExisting vo wo (dotPath path k) [] []).1)) ∧
    (∀ o : JsObj, (∀ k ∈ objKeys o, isArrayIndexKey k = false) →
       jsOwnKeys o = objKeys o) ∧
    (∀ (e g : JsObj) (path : String) (pres add : List String),
       (∀ k ∈ objKeys e, isArrayIndexKey k = false) →
       (∀ k ∈ objKeys g, isArrayIndexKey k = false) →
       jsOwnKeys (deepMergeJson e g path pres add).1 =
         objKeys e ++ (objKeys g).filter (fun k => ¬ objHas e k)) ∧
    (∀ (e g : JsObj) (path : String) (pres add : List String),
       (objKeys g).Nodup →
       (∀ k ∈ objKeys e, isArrayIndexKey k = false) →
       (∀ k ∈ objKeys g, isArrayIndexKey k = false) →
       jsOwnKeys (deepMergePreserveExisting e g path pres add).1 =
         objKeys e ++ (objKeys g).filter (fun k => ¬ objHas e k)) := by
  refine ⟨deepMergeJson_keys, ?_, deepMergePreserve_keys, ?_, ?_, ?_, ?_⟩
  · intro e g path pres add k vo wo hle hlg
    rw [deepMergeJson_acc, deepMergeJson_acc]
    simp only [objLookup_objAppend, dmjRes_nested path hle hlg]
  · intro e g path pres add k vo wo hnd hle hlg
    rw [deepMergePreserve_acc, deepMergePreserve_acc]
    simp only []
    exact dmpGoRes_nested e path hnd hle hlg
  · exact jsOwnKeys_no_index
  · intro e g path pres add he hg
    have hk := deepMergeJson_keys e g path pres add
    rw [jsOwnKeys_no_index _ (by
      rw [hk]
      intro k hkm
      rcases List.mem_append.mp hkm with h | h
      · exact he k h
      · exact hg k (List.mem_of_mem_filter h)), hk]
  · intro e g path pres add hnd he hg
    have hk := deepMergePreserve_keys e g path pres add hnd
    rw [jsOwnKeys_no_index _ (by
      rw [hk]
      intro k hkm
      rcases List.mem_append.mp hkm with h | h
      · exact he k h
      · exact hg k (List.mem_of_mem_filter h)), hk]

/-- Witness for `merged_key_order`: a two-key existing object against a
generated object with one shared and one new key (none an array index),
including one nested mapping on both sides; the observable order law
instantiated on the same merge. -/
theorem merged_key_order_witness :
    objKeys (deepMergeJson
      (.cons "a" (.vnum "1") (.cons "b" (.vobj (.cons "c" (.vnum "2") .nil)) .nil))
      (.cons "b" (.vobj (.cons "d" (.vnum "3") .nil)) (.cons "e" (.vnum "5") .nil))
      "" [] []).1 = ["a", "b", "e"] ∧
    objLookup (deepMergeJson
      (.cons "a" (.vnum "1") (.cons "b" (.vobj (.cons "c" (.vnum "2") .nil)) .nil))
      (.cons "b" (.vobj (.cons "d" (.vnum "3") .nil)) (.cons "e" (.vnum "5") .nil))
      "" [] []).1 "b" =
      some (.vobj (deepMergeJson (.cons "c" (.vnum "2") .nil)
        (.cons "d" (.vnum "3") .nil) (dotPath "" "b") [] []).1) ∧
    objKeys (deepMergePreserveExisting
      (.cons "a" (.vnum "1") .nil) (.cons "a" (.vnum "9") (.cons "z" (.vnum "7") .nil))
      "" [] []).1 = ["a", "z"] ∧
    jsOwnKeys (deepMergeJson
      (.cons "a" (.vnum "1") (.cons "b" (.vobj (.cons "c" (.vnum "2") .nil)) .nil))
      (.cons "b" (.vobj (.cons "d" (.vnum "3") .nil)) (.cons "e" (.vnum "5") .nil))
      "" [] []).1 = ["a", "b", "e"] := by
  refine ⟨?_, ?_, ?_, ?_⟩
  · rw [merged_key_order.1]; rfl
  · exact merged_key_order.2.1 _ _ "" [] [] "b" _ _ rfl rfl
  · rw [merged_key_order.2.2.1 _ _ "" [] [] (by simp [objKeys])]; rfl
  · rw [merged_key_order.2.2.2.2.2.1 _ _ "" [] [] (by decide) (by decide)]
    rfl

/-! ## C7 — duplicate-freedom of the provenance lists -/

/-- `firstDedupGo` emits nothing already seen, and emits no duplicates. -/
theorem firstDedupGo_spec (l : List String) :
    ∀ seen : List String,
      (∀ x ∈ firstDedupGo seen l, ¬ x ∈ seen) ∧
        (firstDedupGo seen l).Nodup := by
  induction l with
  | nil => intro seen; simp [firstDedupGo]
  | cons x rest ih =>
    intro seen
    by_cases hx : seen.contains x
    · rw [firstDedupGo, if_pos hx]
      exact ih seen
    · rw [firstDedupGo, if_neg hx]
      have h1 := (ih (seen ++ [x])).1
      have h2 := (ih (seen ++ [x])).2
      constructor
      · intro y hy
        rcases List.mem_cons.mp hy with h | h
        · subst h
          simpa using hx
        · have := h1 y h
          simp only [List.mem_append, List.mem_singleton] at this
          exact fun hmem => this (Or.inl hmem)
      · refine List.nodup_cons.mpr ⟨?_, h2⟩
        intro hmem
        exact h1 x hmem (by simp)

/-- `firstDedup` always returns a duplicate-free list. -/
theorem firstDedup_nodup (l : List String) : (firstDedup l).Nodup :=
  (firstDedupGo_spec l []).2

/-- C7, counterexample: the claim states that every merge of every format
returns duplicate-free `preserved` and `added`.  The section merge records
the same existing header once per matching generated section; the YAML
merge's empty-existing edge branch does not dedupe `collectKeys`, whose
dotted paths can collide; the JSON merge never dedupes at all, and
colliding dotted paths (a root key containing a dot versus a nested key)
are recorded twice. -/
theorem merge_outputs_can_duplicate :
    (mergeMarkdown "# A\nx" "# A\n1\n# A!\n2").preserved = ["A", "A"] ∧
    ¬ (mergeMarkdown "# A\nx" "# A\n1\n# A!\n2").preserved.Nodup ∧
    (mergeYaml "" "a.b: 1\na:\n  b: 2").added = ["a.b", "a", "a.b"] ∧
    (mergeJson "\x7b\"a.b\":1,\"a\":\x7b\"b\":2\x7d\x7d"
        "\x7b\"a.b\":9,\"a\":\x7b\"b\":9\x7d\x7d").preserved =
      ["a.b", "a.b"] :=
  ⟨rfl, by decide, rfl, rfl⟩

/-- C7, amended: only the YAML merge's main path (both inputs non-empty
after trimming) deduplicates its provenance lists, keeping the first
occurrence of each identifier; its `preserved` and `added` are always
duplicate-free.  The section merge, the JSON merge and the YAML edge
branches do not deduplicate and can return duplicate identifiers. -/
theorem mergeYaml_output_dedup (e g : String)
    (he : jsTrim e ≠ "") (hg : jsTrim g ≠ "") :
    (mergeYaml e g).preserved.Nodup ∧ (mergeYaml e g).added.Nodup := by
  unfold mergeYaml
  rw [if_neg he, if_neg hg]
  exact ⟨firstDedup_nodup _, firstDedup_nodup _⟩

/-- Witness for `mergeYaml_output_dedup` at two one-key documents. -/
theorem mergeYaml_output_dedup_witness :
    jsTrim "a: 1" ≠ "" ∧ jsTrim "a: 2" ≠ "" ∧
    ((mergeYaml "a: 1" "a: 2").preserved.Nodup ∧
      (mergeYaml "a: 1" "a: 2").added.Nodup) :=
  ⟨by decide, by decide, mergeYaml_output_dedup _ _ (by decide) (by decide)⟩

/-! ## C9 — coercion of YAML scalar values -/

/-- C9, counterexample: the claim states that `true`/`false` in any letter
case become booleans and that escaped quotes inside a quoted value are
unescaped.  `tRue` is none of the three casings the code compares against,
so it stays a string; a quoted value is sliced without any unescaping, so
the backslash before an inner quote survives. -/
theorem parseYamlValue_case_and_escape :
    parseYamlValue "tRue" = .vstr "tRue" ∧
    parseYamlValue "\"a\\\"b\"" = .vstr "a\\\"b" ∧
    ("a\\\"b" : String) ≠ "a\"b" :=
  ⟨rfl, rfl, by decide⟩

/-- C9, amended: a value both starting and ending in a double quote (or
both in a single quote) yields the literal between the quotes with no
unescaping; exactly `true`/`True`/`TRUE` yields boolean true and exactly
`false`/`False`/`FALSE` boolean false (any other casing falls through);
then `null`/`~`/empty yields null; then a text accepted by JS `Number()`
yields that number; anything else stays a string as-is. -/
theorem parseYamlValue_branches :
    (∀ s : String, yamlQuoted s →
       parseYamlValue s = .vstr (String.mk s.data.tail.dropLast)) ∧
    (∀ s : String, ¬ yamlQuoted s →
       ((parseYamlValue s = .vbool true ↔
           s = "true" ∨ s = "True" ∨ s = "TRUE") ∧
        (parseYamlValue s = .vbool false ↔
           s = "false" ∨ s = "False" ∨ s = "FALSE") ∧
        (parseYamlValue s = .vnull ↔ s = "null" ∨ s = "~" ∨ s = ""))) ∧
    (∀ s : String, ¬ yamlQuoted s →
       ¬ (s = "true" ∨ s = "True" ∨ s = "TRUE") →
       ¬ (s = "false" ∨ s = "False" ∨ s = "FALSE") →
       ¬ (s = "null" ∨ s = "~" ∨ s = "") →
       (jsNumberOk s → parseYamlValue s = .vnum s) ∧
       (¬ jsNumberOk s → parseYamlValue s = .vstr s)) := by
  refine ⟨?_, ?_, ?_⟩
  · intro s hq
    unfold parseYamlValue
    rw [if_pos hq]
  · intro s hq
    unfold parseYamlValue
    rw [if_neg hq]
    split_ifs with h1 h2 h3 h4
    · rcases h1 with h | h | h <;> subst h <;> simp
    · rcases h2 with h | h | h <;> subst h <;> simp
    · rcases h3 with h | h | h <;> subst h <;> simp
    · simp_all
    · simp_all
  · intro s hq h1 h2 h3
    unfold parseYamlValue
    rw [if_neg hq, if_neg h1, if_neg h2, if_neg h3]
    constructor
    · intro hn
      rw [if_pos]
      exact ⟨hn, fun he => h3 (Or.inr (Or.inr he))⟩
    · intro hn
      rw [if_neg]
      exact fun hc => hn hc.1

/-- Witness for `parseYamlValue_branches`: a quoted value and a numeric
value. -/
theorem parseYamlValue_branches_witness :
    yamlQuoted "\"hi\"" ∧ parseYamlValue "\"hi\"" = .vstr "hi" ∧
      jsNumberOk "3.5" ∧ parseYamlValue "3.5" = .vnum "3.5" := by
  refine ⟨by decide, ?_, by decide, ?_⟩
  · exact parseYamlValue_branches.1 "\"hi\"" (by decide)
  · exact (parseYamlValue_branches.2.2 "3.5" (by decide) (by decide)
      (by decide) (by decide)).1 (by decide)

/-! ## Section-map and generated-phase lemmas -/

/-- `mapGet` after `mapSet`: the set key reads back the new value, any
other key is unchanged. -/
theorem mapGet_mapSet (m : List (String × MarkdownSection)) (k' k : String)
    (v : MarkdownSection) :
    mapGet (mapSet m k v) k' = if k' = k then some v else mapGet m k' := by
  induction m with
  | nil =>
    by_cases h : k' = k
    · subst h; simp [mapSet, mapGet]
    · simp [mapSet, mapGet, h, Ne.symm h]
  | cons p rest ih =>
    obtain ⟨k0, v0⟩ := p
    by_cases h0 : k0 = k
    · subst h0
      by_cases h : k' = k0
      · subst h; simp [mapSet, mapGet]
      · simp [mapSet, mapGet, h, Ne.symm h]
    · by_cases h : k' = k
      · subst h
        simp [mapSet, mapGet, h0, ih, Ne.symm h0]
      · by_cases h1 : k0 = k'
        · subst h1
          simp [mapSet, mapGet, h0, h]
        · simp [mapSet, mapGet, h0, ih, h, h1]

/-- Folding sections whose keys all differ from `k` leaves `mapGet` at `k`
unchanged. -/
theorem mapGet_foldl_not_mem (es : List MarkdownSection)
    (m : List (String × MarkdownSection)) (k : String)
    (h : ∀ s ∈ es, normalizeHeader s.header ≠ k) :
    mapGet (es.foldl (fun m s => mapSet m (normalizeHeader s.header) s) m) k =
      mapGet m k := by
  induction es generalizing m with
  | nil => rfl
  | cons s rest ih =>
    rw [List.foldl_cons, ih _ (fun t ht => h t (List.mem_cons_of_mem _ ht)),
      mapGet_mapSet, if_neg]
    exact fun he => h s (List.mem_cons_self _ _) he.symm

/-- A key carried by no section of `es` is absent from the section map. -/
theorem mapGet_buildSectionMap_none (es : List MarkdownSection) (k : String)
    (h : ∀ s ∈ es, normalizeHeader s.header ≠ k) :
    mapGet (buildSectionMap es) k = none := by
  rw [buildSectionMap, mapGet_foldl_not_mem es [] k h]
  rfl

/-- Folding more sections keeps the invariant that key `k` maps to a
section whose normalized header is `k`. -/
theorem mapGet_foldl_key_stable (es : List MarkdownSection)
    (m : List (String × MarkdownSection)) (k : String)
    (h : ∃ t, mapGet m k = some t ∧ normalizeHeader t.header = k) :
    ∃ t, mapGet (es.foldl (fun m s => mapSet m (normalizeHeader s.header) s) m) k
        = some t ∧ normalizeHeader t.header = k := by
  induction es generalizing m with
  | nil => exact h
  | cons s rest ih =>
    rw [List.foldl_cons]
    apply ih
    by_cases hk : k = normalizeHeader s.header
    · exact ⟨s, by rw [mapGet_mapSet, if_pos hk], hk.symm⟩
    · obtain ⟨t, h1, h2⟩ := h
      exact ⟨t, by rw [mapGet_mapSet, if_neg hk, h1], h2⟩

/-- A member's key is always found in the section map, bound to a section
with the same normalized header. -/
theorem mapGet_buildSectionMap_mem (es : List MarkdownSection)
    (s : MarkdownSection) (hs : s ∈ es) :
    ∃ t, mapGet (buildSectionMap es) (normalizeHeader s.header) = some t ∧
      normalizeHeader t.header = normalizeHeader s.header := by
  obtain ⟨l1, l2, rfl⟩ := List.append_of_mem hs
  rw [buildSectionMap, List.foldl_append, List.foldl_cons]
  apply mapGet_foldl_key_stable
  exact ⟨s, by rw [mapGet_mapSet, if_pos rfl], rfl⟩

/-- With pairwise-distinct normalized headers, every section is found in
the section map under its own key. -/
theorem mapGet_buildSectionMap_nodup (es : List MarkdownSection)
    (hnd : (es.map (fun s => normalizeHeader s.header)).Nodup)
    (s : MarkdownSection) (hs : s ∈ es) :
    mapGet (buildSectionMap es) (normalizeHeader s.header) = some s := by
  obtain ⟨l1, l2, rfl⟩ := List.append_of_mem hs
  have hnd2 : ((s :: l2).map (fun t => normalizeHeader t.header)).Nodup :=
    (List.nodup_append.mp (by simpa [List.map_append] using hnd)).2.1
  have hfs : normalizeHeader s.header ∉
      l2.map (fun t => normalizeHeader t.header) :=
    (List.nodup_cons.mp (by simpa using hnd2)).1
  have h2 : ∀ t ∈ l2, normalizeHeader t.header ≠ normalizeHeader s.header :=
    fun t ht he => hfs (he ▸ List.mem_map_of_mem _ ht)
  rw [buildSectionMap, List.foldl_append, List.foldl_cons,
    mapGet_foldl_not_mem l2 _ _ h2, mapGet_mapSet, if_pos rfl]

/-- The generated-phase loop, characterized as a map and three filterMaps
over the generated sections in order. -/
theorem mergeGenPhase_eq (m : List (String × MarkdownSection))
    (gs : List MarkdownSection) :
    mergeGenPhase m gs =
      (gs.map (fun s =>
         match mapGet m (normalizeHeader s.header) with
         | some ex => ex.fullText
         | none => s.fullText),
       gs.filterMap (fun s =>
         match mapGet m (normalizeHeader s.header) with
         | some ex => if ex.header ≠ "__preamble__" then some ex.header else none
         | none => none),
       gs.filterMap (fun s =>
         match mapGet m (normalizeHeader s.header) with
         | some _ => none
         | none => if s.header ≠ "__preamble__" then some s.header else none),
       gs.filterMap (fun s =>
         (mapGet m (normalizeHeader s.header)).map
           (fun _ => normalizeHeader s.header))) := by
  induction gs with
  | nil => simp [mergeGenPhase]
  | cons g gs ih =>
    rw [mergeGenPhase, ih]
    cases hm : mapGet m (normalizeHeader g.header) with
    | some ex =>
      simp [hm, List.filterMap_cons]
      by_cases hp : ex.header = "__preamble__" <;> simp [hp]
    | none =>
      simp [hm, List.filterMap_cons]
      by_cases hp : g.header = "__preamble__" <;> simp [hp]

/-- A filterMap guarded by a decidable predicate is a filter then map. -/
theorem filterMap_guard {α β : Type} (p : α → Prop) [DecidablePred p]
    (f : α → β) (l : List α) :
    l.filterMap (fun a => if p a then some (f a) else none) =
      (l.filter (fun a => p a)).map f := by
  induction l with
  | nil => rfl
  | cons a l ih =>
    by_cases h : p a <;> simp [List.filterMap_cons, List.filter_cons, h, ih]

/-- When every existing key is used, the leftover loop emits nothing. -/
theorem leftoverSections_all_used (es : List MarkdownSection)
    (used : List String)
    (h : ∀ s ∈ es, normalizeHeader s.header ∈ used) :
    leftoverSections es used = [] := by
  rw [leftoverSections, List.filter_eq_nil_iff]
  intro s hs
  simp [h s hs]

/-- The generated phase when every generated section finds itself in the
map: emissions are the sections' own texts, nothing is added, every
non-preamble header is preserved, every key is used. -/
theorem selfPhase (gs : List MarkdownSection)
    (m : List (String × MarkdownSection))
    (hself : ∀ s ∈ gs, mapGet m (normalizeHeader s.header) = some s) :
    mergeGenPhase m gs =
      (gs.map (·.fullText),
       (gs.filter (fun s => s.header ≠ "__preamble__")).map (·.header),
       [],
       gs.map (fun s => normalizeHeader s.header)) := by
  induction gs with
  | nil => simp [mergeGenPhase]
  | cons g gs ih =>
    have hg := hself g (List.mem_cons_self _ _)
    rw [mergeGenPhase, ih (fun s hs => hself s (List.mem_cons_of_mem _ hs))]
    simp only [hg]
    by_cases hp : g.header = "__preamble__" <;> simp [List.filter_cons, hp]

/-- The generated phase adds nothing when every generated key is found in
the map. -/
theorem genPhase_added_nil (gs : List MarkdownSection)
    (m : List (String × MarkdownSection))
    (h : ∀ s ∈ gs, ∃ t, mapGet m (normalizeHeader s.header) = some t) :
    (mergeGenPhase m gs).2.2.1 = [] := by
  induction gs with
  | nil => simp [mergeGenPhase]
  | cons g gs ih =>
    obtain ⟨t, ht⟩ := h g (List.mem_cons_self _ _)
    rw [mergeGenPhase]
    simp [ht, ih (fun s hs => h s (List.mem_cons_of_mem _ hs))]

/-! ## C4 — merging a document with itself -/

/-- C4, counterexample: the claim states that `mergeMarkdown X X` returns
`X` up to trailing-newline normalization with every non-preamble header in
`preserved`.  A blank separator line becomes part of the first section's
body, and the join re-inserts a `\n\n` separator, so the self-merge gains
a blank line; and when two headers normalize to the same key the map keeps
only the later section, so the earlier header is dropped from the content
and from `preserved` (which records the later header twice). -/
theorem mergeMarkdown_self_not_idempotent :
    (mergeMarkdown "# A\nb\n\n# B\nc" "# A\nb\n\n# B\nc").content =
      "# A\nb\n\n\n# B\nc\n" ∧
    ("# A\nb\n\n\n# B\nc\n" : String) ≠ "# A\nb\n\n# B\nc" ∧
    ("# A\nb\n\n\n# B\nc\n" : String) ≠ "# A\nb\n\n# B\nc" ++ "\n" ∧
    (mergeMarkdown "# A\nx\n# A!\ny" "# A\nx\n# A!\ny").preserved =
      ["A!", "A!"] ∧
    "A" ∈ ((parseMarkdownSections "# A\nx\n# A!\ny").filter
      (fun s => s.header ≠ "__preamble__")).map (·.header) ∧
    "A" ∉ (mergeMarkdown "# A\nx\n# A!\ny" "# A\nx\n# A!\ny").preserved :=
  ⟨rfl, by decide, by decide, rfl, by decide, by decide⟩

/-- C4, amended: a self-merge adds nothing; when the document's normalized
headers are pairwise distinct it preserves every non-preamble header in
order and returns the document's own sections re-joined with one blank
line between consecutive section texts (trimmed, plus a final newline) —
which equals the original text up to trailing-newline normalization only
when the original used exactly that layout. -/
theorem mergeMarkdown_self_merge :
    (∀ X : String, jsTrim X ≠ "" → (mergeMarkdown X X).added = []) ∧
    (∀ X : String, jsTrim X ≠ "" →
       ((parseMarkdownSections X).map (fun s => normalizeHeader s.header)).Nodup →
       mergeMarkdown X X =
         { content := jsTrim (String.intercalate "\n\n"
             ((parseMarkdownSections X).map (·.fullText))) ++ "\n",
           preserved := ((parseMarkdownSections X).filter
             (fun s => s.header ≠ "__preamble__")).map (·.header),
           added := [] }) := by
  constructor
  · intro X hX
    simp only [mergeMarkdown, if_neg hX]
    exact genPhase_added_nil _ _ (fun s hs =>
      (mapGet_buildSectionMap_mem _ s hs).imp (fun t h2 => h2.1))
  · intro X hX hnd
    simp only [mergeMarkdown, if_neg hX]
    rw [selfPhase _ _ (mapGet_buildSectionMap_nodup _ hnd)]
    simp [leftoverSections_all_used (parseMarkdownSections X)
      ((parseMarkdownSections X).map (fun s => normalizeHeader s.header))
      (fun s hs => List.mem_map_of_mem (fun s => normalizeHeader s.header) hs)]

/-- Witness for `mergeMarkdown_self_merge` at a one-section document. -/
theorem mergeMarkdown_self_merge_witness :
    jsTrim "# A\nhello" ≠ "" ∧
    ((parseMarkdownSections "# A\nhello").map
      (fun s => normalizeHeader s.header)).Nodup ∧
    mergeMarkdown "# A\nhello" "# A\nhello" =
      { content := jsTrim (String.intercalate "\n\n"
          ((parseMarkdownSections "# A\nhello").map (·.fullText))) ++ "\n",
        preserved := ((parseMarkdownSections "# A\nhello").filter
          (fun s => s.header ≠ "__preamble__")).map (·.header),
        added := [] } :=
  ⟨by decide, by decide,
   mergeMarkdown_self_merge.2 "# A\nhello" (by decide) (by decide)⟩

/-! ## C6 — preamble matching discipline -/

/-- C6, counterexample: the claim states that a generated preamble never
matches a titled existing section and a generated titled section never
matches the existing preamble.  The sentinel `__preamble__` normalizes to
`preamble`, so a generated preamble matches an existing `# Preamble`
section (recording `Preamble` in `preserved`), and a generated
`# Preamble` section matches an existing plain preamble (whose text
replaces it, silently). -/
theorem preamble_matches_titled_section :
    mergeMarkdown "# Preamble\nOLD" "intro\n\n# Other\nx" =
      { content := "# Preamble\nOLD\n\n# Other\nx\n",
        preserved := ["Preamble"], added := ["Other"] } ∧
    mergeMarkdown "just intro" "# Preamble\nNEW" =
      { content := "just intro\n", preserved := [], added := [] } :=
  ⟨rfl, rfl⟩

/-- C6, amended: section matching is purely by normalized header; the
preamble sentinel `__preamble__` itself normalizes to `preamble`, so a
generated preamble matches whichever existing section (titled or not) last
carried normalized key `preamble`, and matches nothing only when no
existing section normalizes to `preamble`; symmetrically a generated
titled section normalizing to `preamble` matches an existing preamble.
Every existing section is reachable in the map under its own normalized
key. -/
theorem preamble_matching :
    normalizeHeader "__preamble__" = "preamble" ∧
    (∀ h : String, headersMatch "__preamble__" h = true ↔
       normalizeHeader h = "preamble") ∧
    (∀ es : List MarkdownSection,
       (∀ s ∈ es, normalizeHeader s.header ≠ "preamble") →
       mapGet (buildSectionMap es) (normalizeHeader "__preamble__") = none) ∧
    (∀ es : List MarkdownSection, ∀ s, s ∈ es →
       ∃ t, mapGet (buildSectionMap es) (normalizeHeader s.header) = some t ∧
         normalizeHeader t.header = normalizeHeader s.header) := by
  have h0 : normalizeHeader "__preamble__" = "preamble" := by decide
  refine ⟨h0, ?_, ?_, ?_⟩
  · intro h
    simp [headersMatch, h0, eq_comm]
  · intro es hes
    rw [h0]
    exact mapGet_buildSectionMap_none es _ hes
  · intro es s hs
    exact mapGet_buildSectionMap_mem es s hs

/-- Witness for `preamble_matching` at a one-section list whose header does
not normalize to the sentinel key. -/
theorem preamble_matching_witness :
    (∃ t, mapGet (buildSectionMap
        [(⟨"Other", 1, "# Other", "", "# Other"⟩ : MarkdownSection)])
        (normalizeHeader "Other") = some t ∧
      normalizeHeader t.header = normalizeHeader "Other") ∧
    mapGet (buildSectionMap
        [(⟨"Other", 1, "# Other", "", "# Other"⟩ : MarkdownSection)])
      (normalizeHeader "__preamble__") = none :=
  ⟨preamble_matching.2.2.2 _ ⟨"Other", 1, "# Other", "", "# Other"⟩
     (by decide),
   preamble_matching.2.2.1 _ (by decide)⟩

/-! ## C5 — section order of the merged output -/

/-- C5, counterexample: the claim states that the existing-only sections
whose keys were never matched follow in their original order.  An existing
preamble whose key is never matched is an existing-only section, yet the
leftover loop excludes it, so its text is silently dropped from the
merge. -/
theorem existing_preamble_dropped :
    (parseMarkdownSections "intro\n\n# A\nb").map (·.header) =
      ["__preamble__", "A"] ∧
    mergeMarkdown "intro\n\n# A\nb" "# A\nnew" =
      { content := "# A\nb\n", preserved := ["A"], added := [] } :=
  ⟨rfl, rfl⟩

/-- C5, amended: the merged output is the generated sections in generated
order — each replaced by the map entry of its normalized header when
present, itself otherwise — followed by the existing sections whose
normalized key was never matched, in their original existing order,
except that an unmatched existing preamble is dropped; `preserved` and
`added` follow the same order.  The leftover run is an order-preserving
sublist of the existing sections, each member unmatched and
non-preamble. -/
theorem merged_section_order_law :
    (∀ e g : String, jsTrim e ≠ "" → jsTrim g ≠ "" →
       mergeMarkdown e g =
         { content := jsTrim (String.intercalate "\n\n"
             ((parseMarkdownSections g).map (fun s =>
                 match mapGet (buildSectionMap (parseMarkdownSections e))
                     (normalizeHeader s.header) with
                 | some ex => ex.fullText
                 | none => s.fullText) ++
              (leftoverSections (parseMarkdownSections e)
                 ((parseMarkdownSections g).filterMap (fun s =>
                    (mapGet (buildSectionMap (parseMarkdownSections e))
                       (normalizeHeader s.header)).map
                      (fun _ => normalizeHeader s.header)))).map
                (·.fullText))) ++ "\n",
           preserved := (parseMarkdownSections g).filterMap (fun s =>
               match mapGet (buildSectionMap (parseMarkdownSections e))
                   (normalizeHeader s.header) with
               | some ex => if ex.header ≠ "__preamble__" then some ex.header
                 else none
               | none => none) ++
             (leftoverSections (parseMarkdownSections e)
                ((parseMarkdownSections g).filterMap (fun s =>
                   (mapGet (buildSectionMap (parseMarkdownSections e))
                      (normalizeHeader s.header)).map
                     (fun _ => normalizeHeader s.header)))).map (·.header),
           added := (parseMarkdownSections g).filterMap (fun s =>
               match mapGet (buildSectionMap (parseMarkdownSections e))
                   (normalizeHeader s.header) with
               | some _ => none
               | none => if s.header ≠ "__preamble__" then some s.header
                 else none) }) ∧
    (∀ (es : List MarkdownSection) (used : List String),
       (leftoverSections es used).Sublist es) ∧
    (∀ (es : List MarkdownSection) (used : List String)
       (s : MarkdownSection), s ∈ leftoverSections es used →
       s.header ≠ "__preamble__" ∧ normalizeHeader s.header ∉ used) := by
  refine ⟨?_, ?_, ?_⟩
  · intro e g he hg
    simp only [mergeMarkdown, if_neg he, if_neg hg, mergeGenPhase_eq]
  · intro es used
    rw [leftoverSections]
    exact List.filter_sublist _
  · intro es used s hs
    simp only [leftoverSections, List.mem_filter, decide_eq_true_eq] at hs
    refine ⟨hs.2.2, ?_⟩
    intro hmem
    exact hs.2.1 (by simpa using hmem)

/-- Witness for `merged_section_order_law`: a matched section keeps the
existing text, the unmatched existing section follows. -/
theorem merged_section_order_law_witness :
    jsTrim "# A\nold\n# B\nkeep" ≠ "" ∧ jsTrim "# A\nnew" ≠ "" ∧
    mergeMarkdown "# A\nold\n# B\nkeep" "# A\nnew" =
      { content := "# A\nold\n\n# B\nkeep\n", preserved := ["A", "B"],
        added := [] } :=
  ⟨by decide, by decide,
   (merged_section_order_law.1 "# A\nold\n# B\nkeep" "# A\nnew"
      (by decide) (by decide)).trans (by rfl)⟩

/-! ## Line-level span lemmas for the section parser -/

/-- Strings with the same character data are equal. -/
theorem string_eq_of_data {a b : String} (h : a.data = b.data) : a = b := by
  cases a; cases b; exact congrArg String.mk h

/-- `joinLines` on a list of two or more lines peels off the first line and
one separator. -/
theorem joinLines_cons2 (x y : String) (t : List String) :
    joinLines (x :: y :: t) = x ++ "\n" ++ joinLines (y :: t) := by
  apply string_eq_of_data
  simp [joinLines, joinWithChar, String.data_append]

/-- The section closed by `closeSec` satisfies the span formula: its
content is its body lines joined, and its full text joins the raw header
line to the body — collapsing to the raw header alone when the joined
body is empty. -/
theorem closeSec_spec (h : String) (lvl : Nat) (raw : String)
    (acc : List String) :
    (closeSec h lvl raw acc).content = joinLines acc ∧
    (closeSec h lvl raw acc).fullText =
      (if (closeSec h lvl raw acc).content = "" then
        (closeSec h lvl raw acc).rawHeader
       else joinLines ((closeSec h lvl raw acc).rawHeader :: acc)) := by
  refine ⟨rfl, ?_⟩
  by_cases hc : joinLines acc = ""
  · simp [closeSec, hc]
  · have hacc : acc ≠ [] := by
      intro he
      subst he
      exact hc rfl
    obtain ⟨a, t, rfl⟩ := List.exists_cons_of_ne_nil hacc
    simp [closeSec, hc, joinLines_cons2, String.append_assoc]

/-- The section accumulator of the line loop threads through by
appending. -/
theorem parseGo_acc (ls : List String) :
    ∀ (cur : Option (String × Nat × String)) (acc : List String)
      (secs : List MarkdownSection),
      parseGo ls cur acc secs =
        (secs ++ (parseGo ls cur acc []).1, (parseGo ls cur acc []).2) := by
  induction ls with
  | nil =>
    intro cur acc secs
    cases cur with
    | some c => obtain ⟨h, lvl, raw⟩ := c; simp [parseGo]
    | none => simp [parseGo]
  | cons l rest ih =>
    intro cur acc secs
    cases hm : matchHeaderLine l with
    | some p =>
      obtain ⟨lvl, txt⟩ := p
      cases cur with
      | some c =>
        obtain ⟨h, hl, raw⟩ := c
        simp only [parseGo, hm]
        rw [ih _ _ (secs ++ [closeSec h hl raw acc]),
          ih _ _ ([] ++ [closeSec h hl raw acc])]
        simp
      | none =>
        simp only [parseGo, hm]
        exact ih _ _ secs
    | none =>
      simp only [parseGo, hm]
      exact ih _ _ secs

/-- With an open section, the line loop emits that section first (with
some body), then the rest. -/
theorem parseGo_first (ls : List String) :
    ∀ (h : String) (lvl : Nat) (raw : String) (acc : List String)
      (secs : List MarkdownSection),
      ∃ B S, (parseGo ls (some (h, lvl, raw)) acc secs).1 =
        secs ++ closeSec h lvl raw B :: S := by
  induction ls with
  | nil =>
    intro h lvl raw acc secs
    exact ⟨acc, [], by simp [parseGo]⟩
  | cons l rest ih =>
    intro h lvl raw acc secs
    cases hm : matchHeaderLine l with
    | some p =>
      obtain ⟨lvl2, txt⟩ := p
      obtain ⟨B, S, hBS⟩ := ih txt lvl2 l [] (secs ++ [closeSec h lvl raw acc])
      refine ⟨acc, closeSec txt lvl2 l B :: S, ?_⟩
      simp only [parseGo, hm]
      rw [hBS]
      simp
    | none =>
      simp only [parseGo, hm]
      exact ih h lvl raw (acc ++ [l]) secs

/-- Every section the line loop emits beyond the incoming accumulator was
closed by `closeSec`. -/
theorem parseGo_shape (ls : List String) :
    ∀ (cur : Option (String × Nat × String)) (acc : List String)
      (secs : List MarkdownSection),
      ∀ s ∈ (parseGo ls cur acc secs).1,
        s ∈ secs ∨ ∃ h lvl raw a, s = closeSec h lvl raw a := by
  induction ls with
  | nil =>
    intro cur acc secs s hs
    cases cur with
    | some c =>
      obtain ⟨h, lvl, raw⟩ := c
      simp only [parseGo] at hs
      rcases List.mem_append.mp hs with h2 | h2
      · exact Or.inl h2
      · exact Or.inr ⟨h, lvl, raw, acc, by simpa using h2⟩
    | none => exact Or.inl (by simpa [parseGo] using hs)
  | cons l rest ih =>
    intro cur acc secs s hs
    cases hm : matchHeaderLine l with
    | some p =>
      obtain ⟨lvl, txt⟩ := p
      cases cur with
      | some c =>
        obtain ⟨h, hl, raw⟩ := c
        simp only [parseGo, hm] at hs
        rcases ih _ _ _ s hs with h2 | h2
        · rcases List.mem_append.mp h2 with h3 | h3
          · exact Or.inl h3
          · exact Or.inr ⟨h, hl, raw, acc, by simpa using h3⟩
        · exact Or.inr h2
      | none =>
        simp only [parseGo, hm] at hs
        exact ih _ _ _ s hs
    | none =>
      simp only [parseGo, hm] at hs
      exact ih _ _ _ s hs

/-- The span law of the line loop: starting from an open header line, the
remaining line stream is exactly partitioned into per-section chunks of
one raw header line followed by that section's body lines; each emitted
section's content is its body joined, and its full text joins its raw
header to its body, collapsing to the raw header alone when the joined
body is empty. -/
theorem parseGo_tiling (ls : List String) :
    ∀ (h : String) (lvl : Nat) (raw : String) (acc : List String),
      ∃ bodies : List (List String),
        bodies.length = ((parseGo ls (some (h, lvl, raw)) acc []).1).length ∧
        raw :: (acc ++ ls) =
          (List.zipWith (fun (s : MarkdownSection) b => s.rawHeader :: b)
            ((parseGo ls (some (h, lvl, raw)) acc []).1) bodies).flatten ∧
        ∀ p ∈ ((parseGo ls (some (h, lvl, raw)) acc []).1).zip bodies,
          p.1.content = joinLines p.2 ∧
          p.1.fullText = (if p.1.content = "" then p.1.rawHeader
            else joinLines (p.1.rawHeader :: p.2)) := by
  induction ls with
  | nil =>
    intro h lvl raw acc
    refine ⟨[acc], by simp [parseGo], ?_, ?_⟩
    · simp [parseGo, closeSec]
    · intro p hp
      simp only [parseGo, List.nil_append, List.zip_cons_cons,
        List.zip_nil_right, List.mem_singleton] at hp
      subst hp
      exact closeSec_spec h lvl raw acc
  | cons l rest ih =>
    intro h lvl raw acc
    cases hm : matchHeaderLine l with
    | some q =>
      obtain ⟨lvl2, txt⟩ := q
      obtain ⟨bodies2, hlen, hflat, hmem⟩ := ih txt lvl2 l []
      simp only [List.nil_append] at hflat
      have hsecs : (parseGo (l :: rest) (some (h, lvl, raw)) acc []).1 =
          closeSec h lvl raw acc ::
            (parseGo rest (some (txt, lvl2, l)) [] []).1 := by
        simp only [parseGo, hm, List.nil_append,
          parseGo_acc rest (some (txt, lvl2, l)) [] [closeSec h lvl raw acc],
          List.singleton_append]
      refine ⟨acc :: bodies2, ?_, ?_, ?_⟩ <;> simp only [hsecs]
      · simp [hlen]
      · simp only [List.zipWith_cons_cons, List.flatten_cons, ← hflat]
        simp [closeSec]
      · intro p hp
        simp only [List.zip_cons_cons, List.mem_cons] at hp
        rcases hp with hp | hp
        · subst hp
          exact closeSec_spec h lvl raw acc
        · exact hmem p hp
    | none =>
      obtain ⟨bodies, hlen, hflat, hmem⟩ := ih h lvl raw (acc ++ [l])
      have he : acc ++ l :: rest = (acc ++ [l]) ++ rest := by simp
      refine ⟨bodies, ?_, ?_, ?_⟩ <;> simp only [parseGo, hm]
      · exact hlen
      · rw [he]
        exact hflat
      · exact hmem

/-- `splitOnChar` always returns a first piece that is a prefix of the
input. -/
theorem splitOnChar_cons_prefix (sep : Char) (cs : List Char) :
    ∃ h t, splitOnChar sep cs = h :: t ∧ h <+: cs := by
  induction cs with
  | nil => exact ⟨[], [], rfl, List.nil_prefix⟩
  | cons c rest ih =>
    obtain ⟨h, t, heq, hpre⟩ := ih
    by_cases hc : c = sep
    · exact ⟨[], h :: t, by simp [splitOnChar, heq, hc], List.nil_prefix⟩
    · exact ⟨c :: h, t, by simp [splitOnChar, heq, hc],
        List.cons_prefix_cons.mpr ⟨rfl, hpre⟩⟩

/-- `idxOfSub` finds a prefix pattern at position zero. -/
theorem idxOfSub_prefix {hay pat : List Char} (h : pat <+: hay) :
    idxOfSub hay pat = some 0 := by
  cases hay with
  | nil =>
    rw [List.prefix_nil.mp h]
    rfl
  | cons c t =>
    rw [idxOfSub, if_pos]
    exact List.isPrefixOf_iff_prefix.mpr h

/-- A document whose first line is a header line parses to exactly the
line loop's sections: no preamble is added and the sections are kept
as produced. -/
theorem parseMarkdownSections_header_first (content l0 : String)
    (rest : List String) (lvl : Nat) (txt : String)
    (hsplit : jsSplit content '\n' = l0 :: rest)
    (hm : matchHeaderLine l0 = some (lvl, txt)) :
    parseMarkdownSections content =
      (parseGo rest (some (txt, lvl, l0)) [] []).1 := by
  have hpre : l0.data <+: content.data := by
    obtain ⟨h, t, heq, hp⟩ := splitOnChar_cons_prefix '\n' content.data
    have h2 : (splitOnChar '\n' content.data).map String.mk = l0 :: rest :=
      hsplit
    rw [heq, List.map_cons, List.cons_eq_cons] at h2
    have h3 : l0.data = h := by rw [← h2.1]
    rw [h3]
    exact hp
  have hidx : strIndexOf content l0 = some 0 := idxOfSub_prefix hpre
  obtain ⟨B, S, hBS⟩ := parseGo_first rest txt lvl l0 [] []
  unfold parseMarkdownSections
  rw [hsplit]
  simp only [parseGo, hm]
  rw [hBS]
  simp [closeSec, hidx]

/-- Every non-preamble section of a parse satisfies the header/content
concatenation formula for its full text. -/
theorem parseMarkdownSections_fullText (content : String)
    (s : MarkdownSection) (hs : s ∈ parseMarkdownSections content)
    (hp : s.header ≠ "__preamble__") :
    s.fullText = s.rawHeader ++
      (if s.content = "" then "" else "\n" ++ s.content) := by
  have hclose : (∃ h lvl raw a, s = closeSec h lvl raw a) →
      s.fullText = s.rawHeader ++
        (if s.content = "" then "" else "\n" ++ s.content) := by
    rintro ⟨h, lvl, raw, a, rfl⟩
    by_cases hc : joinLines a = "" <;> simp [closeSec, hc]
  have hsec : ∀ t ∈ (parseGo (jsSplit content '\n') none [] []).1,
      ∃ h lvl raw a, t = closeSec h lvl raw a := by
    intro t ht
    rcases parseGo_shape (jsSplit content '\n') none [] [] t ht with h2 | h2
    · simp at h2
    · exact h2
  simp only [parseMarkdownSections] at hs
  split at hs
  · split at hs
    · rw [List.mem_singleton] at hs
      exact absurd (by rw [hs]) hp
    · simp at hs
  · split at hs
    · exact hclose (hsec s hs)
    · split at hs
      · split at hs
        · split at hs
          · rcases List.mem_cons.mp hs with h2 | h2
            · exact absurd (by rw [h2]) hp
            · exact hclose (hsec s h2)
          · exact hclose (hsec s hs)
        · exact hclose (hsec s hs)
      · exact hclose (hsec s hs)

/-! ## C8 — per-section span round-trip -/

/-- C8, counterexample: the claim states that every Section of a parse,
the preamble included, reproduces its original span.  A preamble is
trimmed (its surrounding blank lines are lost), and its boundary is the
`indexOf` of the first raw header line, which can cut mid-line when that
text occurs earlier; a titled section whose body is a single empty line
loses it (the joined content is empty, so the blank line vanishes from the
full text). -/
theorem preamble_span_lost :
    (parseMarkdownSections "intro\n\n# A\nb").map (·.fullText) =
      ["intro", "# A\nb"] ∧
    strIndexOf "intro\n\n# A\nb" "# A" = some 7 ∧
    String.mk (("intro\n\n# A\nb").data.take 7) = "intro\n\n" ∧
    ("intro" : String) ≠ "intro\n\n" ∧
    (parseMarkdownSections "x # A\n# A\nb").map (·.content) = ["x", "b"] ∧
    (parseMarkdownSections "x # A\n# A\nb").map (·.fullText) =
      ["x", "# A\nb"] ∧
    (parseMarkdownSections "# A\n\n# B\nc").map (·.fullText) =
      ["# A", "# B\nc"] ∧
    String.intercalate "\n" ["# A", "# B\nc"] ≠ "# A\n\n# B\nc" :=
  ⟨rfl, rfl, rfl, by decide, rfl, rfl, rfl, by decide⟩

/-- C8, amended: every titled section's full text is its raw header line
joined by a newline to its non-empty content; from any open header line
the remaining line stream is exactly partitioned into per-section chunks
of one raw header line followed by that section's body lines, each
section's content being its body joined — so the span is reproduced
except when the joined body is empty (an empty body or a single blank
line, which collapses to the raw header alone); and a document whose
first line is a header parses to exactly the line loop's sections.  The
preamble does not round-trip: it is trimmed and its boundary is found by
`indexOf` of the first raw header text. -/
theorem section_roundtrip :
    (∀ (content : String) (s : MarkdownSection),
       s ∈ parseMarkdownSections content → s.header ≠ "__preamble__" →
       s.fullText = s.rawHeader ++
         (if s.content = "" then "" else "\n" ++ s.content)) ∧
    (∀ (ls : List String) (h : String) (lvl : Nat) (raw : String)
       (acc : List String),
       ∃ bodies : List (List String),
         bodies.length = ((parseGo ls (some (h, lvl, raw)) acc []).1).length ∧
         raw :: (acc ++ ls) =
           (List.zipWith (fun (s : MarkdownSection) b => s.rawHeader :: b)
             ((parseGo ls (some (h, lvl, raw)) acc []).1) bodies).flatten ∧
         ∀ p ∈ ((parseGo ls (some (h, lvl, raw)) acc []).1).zip bodies,
           p.1.content = joinLines p.2 ∧
           p.1.fullText = (if p.1.content = "" then p.1.rawHeader
             else joinLines (p.1.rawHeader :: p.2))) ∧
    (∀ (content l0 : String) (rest : List String) (lvl : Nat) (txt : String),
       jsSplit content '\n' = l0 :: rest →
       matchHeaderLine l0 = some (lvl, txt) →
       parseMarkdownSections content =
         (parseGo rest (some (txt, lvl, l0)) [] []).1) :=
  ⟨parseMarkdownSections_fullText, parseGo_tiling,
   parseMarkdownSections_header_first⟩

/-- Witness for `section_roundtrip` at a one-section document. -/
theorem section_roundtrip_witness :
    jsSplit "# A\nb" '\n' = ["# A", "b"] ∧
    matchHeaderLine "# A" = some (1, "A") ∧
    parseMarkdownSections "# A\nb" =
      (parseGo ["b"] (some ("A", 1, "# A")) [] []).1 ∧
    ((⟨"A", 1, "# A", "b", "# A\nb"⟩ : MarkdownSection) ∈
      parseMarkdownSections "# A\nb") ∧
    (⟨"A", 1, "# A", "b", "# A\nb"⟩ : MarkdownSection).fullText =
      (⟨"A", 1, "# A", "b", "# A\nb"⟩ : MarkdownSection).rawHeader ++
        (if (⟨"A", 1, "# A", "b", "# A\nb"⟩ : MarkdownSection).content = ""
         then ""
         else "\n" ++
           (⟨"A", 1, "# A", "b", "# A\nb"⟩ : MarkdownSection).content) :=
  ⟨rfl, rfl,
   section_roundtrip.2.2 "# A\nb" "# A" ["b"] 1 "A" rfl rfl,
   by decide,
   section_roundtrip.1 "# A\nb" _ (by decide) (by decide)⟩

end MergeStrategy
